import Mathlib

/-!
# Verification of nixdoc's extraction core (src/main.rs)

Shallow embedding of the extraction engine of nixdoc.  Rust strings (`str`,
`String`) are modelled as `List Char`; the rnix/rowan syntax tree is modelled
as an ordered tree of nodes and tokens, and the backward token walk of
`retrieve_doc_comment` receives the list of tokens preceding the node in the
file, closest first.  All definitions are executable and translated from
`src/main.rs` (plus the documented behaviour of the external collaborators
`textwrap::dedent`, `str` methods, and rnix accessors at their interface).
-/

/-- Rust `char::is_whitespace`: the Unicode `White_Space` property. -/
def isRustWs (c : Char) : Bool :=
  c == ' ' || c == '\t' || c == '\n' || c == '\r' || c == '\x0B' || c == '\x0C' ||
  c == '\u0085' || c == '\u00A0' || c == '\u1680' ||
  ('\u2000' ≤ c && c ≤ '\u200A') ||
  c == '\u2028' || c == '\u2029' || c == '\u202F' || c == '\u205F' || c == '\u3000'

/-- Convenience: the character list of a string literal. -/
def str (s : String) : List Char := s.data

/-- Rust `str::trim_start`. -/
def trimStartL (s : List Char) : List Char := s.dropWhile isRustWs

/-- Rust `str::trim_end`. -/
def trimEndL (s : List Char) : List Char := (s.reverse.dropWhile isRustWs).reverse

/-- Rust `str::trim`. -/
def trimRust (s : List Char) : List Char := trimEndL (trimStartL s)

/-- Rust `str::strip_prefix` (on the whole pattern p): `some` of the rest when
`p` is a prefix of `s`. -/
def dropPrefixL : List Char → List Char → Option (List Char)
  | [], s => some s
  | _ :: _, [] => none
  | p :: ps, c :: cs => if p = c then dropPrefixL ps cs else none

/-- Rust `str::strip_suffix`. -/
def dropSuffixL (suf s : List Char) : Option (List Char) :=
  (dropPrefixL suf.reverse s.reverse).map List.reverse

/-- Rust `str::starts_with` (string pattern). -/
def startsWithL (p s : List Char) : Bool := (dropPrefixL p s).isSome

/-- `s.split('\n')`: all segments, one more than the number of newlines. -/
def splitLF : List Char → List (List Char)
  | [] => [[]]
  | c :: rest =>
    if c = '\n' then [] :: splitLF rest
    else
      match splitLF rest with
      | [] => [[c]]
      | s :: ss => (c :: s) :: ss

/-- Does the string end with a newline? -/
def endsLF (s : List Char) : Bool := s.getLast? == some '\n'

/-- Strip one trailing carriage return (part of Rust `str::lines`). -/
def stripCR (l : List Char) : List Char :=
  if l.getLast? == some '\r' then l.dropLast else l

/-- Rust `str::lines`: split at `'\n'`, drop a final empty segment produced by a
terminating newline, strip one trailing `'\r'` from every line. -/
def linesRust (s : List Char) : List (List Char) :=
  if s = [] then []
  else (if endsLF s then (splitLF s).dropLast else splitLF s).map stripCR

/-- Rust `str::split_inclusive('\n')`: segments keep their trailing newline;
the empty string yields no segments. -/
def splitInclusiveLF : List Char → List (List Char)
  | [] => []
  | c :: rest =>
    if c = '\n' then ['\n'] :: splitInclusiveLF rest
    else
      match splitInclusiveLF rest with
      | [] => [[c]]
      | s :: ss => (c :: s) :: ss

/-- Rust `str::split_once('\n')`. -/
def splitOnceLF (s : List Char) : Option (List Char × List Char) :=
  if s.contains '\n' then some (s.takeWhile (· ≠ '\n'), (s.dropWhile (· ≠ '\n')).tail)
  else none

/-- Rust `str::split("\n\n")`: non-overlapping, leftmost-first. -/
def splitOnDoubleLF : List Char → List (List Char)
  | [] => [[]]
  | '\n' :: '\n' :: rest => [] :: splitOnDoubleLF rest
  | c :: rest =>
    match splitOnDoubleLF rest with
    | [] => [[c]]
    | s :: ss => (c :: s) :: ss

/-- Is the string entirely whitespace (true for the empty string)? -/
def allWs (s : List Char) : Bool := s.all isRustWs

/-- Length of the longest common prefix of two strings (the matched region of
`dedent`'s zip loop). -/
def commonPrefixLen : List Char → List Char → Nat
  | a :: as_, b :: bs => if a = b then commonPrefixLen as_ bs + 1 else 0
  | _, _ => 0

/-- First loop of `textwrap::dedent`: scan for the first line holding a
non-whitespace character; return its leading whitespace (the initial common
prefix) together with the remaining lines. -/
def findPrefixSplit : List (List Char) → (List Char × List (List Char))
  | [] => ([], [])
  | l :: ls =>
    let w := l.takeWhile isRustWs
    if w.length < l.length then (w, ls) else findPrefixSplit ls

/-- Second loop of `textwrap::dedent`: shorten the prefix to the region matched
by this line, unless the matched region covers the whole line. -/
def shrinkStep (p l : List Char) : List Char :=
  let m := commonPrefixLen l p
  if m < l.length then p.take m else p

/-- Third loop of `textwrap::dedent`: rebuild the text, stripping the prefix
from every line that carries it and is not pure whitespace, blanking
whitespace-only lines, terminating every line with a newline. -/
def dedentRebuild (p : List Char) (ls : List (List Char)) : List Char :=
  (ls.map (fun l =>
    (if p.isPrefixOf l && !allWs l then l.drop p.length else []) ++ ['\n'])).flatten

/-- `textwrap::dedent`, as used by `handle_indentation`. -/
def dedent (s : List Char) : List Char :=
  let ls := linesRust s
  let pr := findPrefixSplit ls
  let p := pr.2.foldl shrinkStep pr.1
  let result := dedentRebuild p ls
  if result.getLast? == some '\n' && !endsLF s then result.dropLast else result

/-- `handle_indentation` from src/main.rs: trim the first line, dedent the
rest as a block, trim the whole, return nothing when empty. -/
def handle_indentation (raw : List Char) : Option (List Char) :=
  let result :=
    match splitOnceLF raw with
    | some (first, rest) => trimRust first ++ '\n' :: dedent rest
    | none => raw
  let t := trimRust result
  if t = [] then none else some t

/-- The parsed doc comment (`DocComment` in src/main.rs). -/
structure DocComment where
  doc : List Char
  doc_type : Option (List Char)
  example' : Option (List Char)
  deriving Repr, DecidableEq

/-- The state of `parse_doc_comment`'s line scanner (`ParseState`). -/
inductive ParseState
  | doc
  | typ
  | ex
  deriving Repr, DecidableEq

/-- The three section buffers of `parse_doc_comment`. -/
structure Bufs where
  doc : List Char
  typ : List Char
  ex : List Char
  deriving Repr, DecidableEq

/-- One line step of `parse_doc_comment`: keyword detection on the trimmed
line, on success append the keyword remainder plus a newline to that section's
buffer and switch state, otherwise append the untrimmed line to the current
section's buffer. -/
def parseStep (acc : ParseState × Bufs) (line : List Char) : ParseState × Bufs :=
  let trimmed := trimRust line
  match dropPrefixL (str "Type:") trimmed with
  | some suffix => (.typ, { acc.2 with typ := acc.2.typ ++ suffix ++ ['\n'] })
  | none =>
    match dropPrefixL (str "Example:") trimmed with
    | some suffix => (.ex, { acc.2 with ex := acc.2.ex ++ suffix ++ ['\n'] })
    | none =>
      match acc.1 with
      | .doc => (acc.1, { acc.2 with doc := acc.2.doc ++ line })
      | .typ => (acc.1, { acc.2 with typ := acc.2.typ ++ line })
      | .ex => (acc.1, { acc.2 with ex := acc.2.ex ++ line })

/-- The three section buffers accumulated over `raw.split_inclusive('\n')`. -/
def parseBufs (raw : List Char) : Bufs :=
  ((splitInclusiveLF raw).foldl parseStep (.doc, ⟨[], [], []⟩)).2

/-- `parse_doc_comment` from src/main.rs. -/
def parse_doc_comment (raw : List Char) : DocComment :=
  let b := parseBufs raw
  { doc := (handle_indentation b.doc).getD []
    doc_type := handle_indentation b.typ
    example' := handle_indentation b.ex }

/-- Did some line of the raw comment, once trimmed, start with `Type:` (the
condition that switches the scanner into the type section)? -/
def typeAppeared (raw : List Char) : Bool :=
  (splitInclusiveLF raw).any (fun l => (dropPrefixL (str "Type:") (trimRust l)).isSome)

/-- Did some line of the raw comment, once trimmed, start with `Example:`
without starting with `Type:`? -/
def exampleAppeared (raw : List Char) : Bool :=
  (splitInclusiveLF raw).any (fun l =>
    !(dropPrefixL (str "Type:") (trimRust l)).isSome &&
      (dropPrefixL (str "Example:") (trimRust l)).isSome)

/-! ## Tokens and the comment locator (`retrieve_doc_comment`) -/

/-- rowan token kinds; only whitespace and comment are ever discriminated by
the extraction core, every other token kind is collapsed into `other`. -/
inductive TokenKind
  | whitespace
  | comment
  | other
  deriving Repr, DecidableEq

/-- One rowan syntax token: a kind and its source text. -/
structure Token where
  kind : TokenKind
  text : List Char
  deriving Repr, DecidableEq

/-- rnix `Comment::text()`: the comment's text without delimiters — strip a
leading `#`, otherwise strip `/*` and `*/`. -/
def commentText (t : Token) : List Char :=
  match dropPrefixL (str "#") t.text with
  | some s => s
  | none =>
    match dropPrefixL (str "/*") t.text with
    | some s =>
      match dropSuffixL (str "*/") s with
      | some s2 => s2
      | none => t.text
    | none => t.text

/-- The step `token = token.prev_token()?` followed by skipping exactly one
whitespace token (lines 106-109 and 117-120 of src/main.rs), on the
closest-first list of tokens preceding the node. -/
def prevSkipWs : List Token → Option (Token × List Token)
  | [] => none
  | t :: rest =>
    if t.kind = .whitespace then
      match rest with
      | [] => none
      | u :: r => some (u, r)
    else some (t, rest)

/-- The while-loop of lines 116-124: with line comments disallowed, walk
backward over `#` comments (each hop takes the previous token, skips one
whitespace token, and requires a comment) until a non-`#` comment is reached. -/
def backtrackToBlock (tok : Token) (rest : List Token) : Option (Token × List Token) :=
  if tok.text.head? = some '#' then
    match rest with
    | [] => none
    | t :: r =>
      if t.kind = .whitespace then
        match r with
        | [] => none
        | u :: r2 => if u.kind = .comment then backtrackToBlock u r2 else none
      else if t.kind = .comment then backtrackToBlock t r else none
  else some (tok, rest)

/-- The merge loop of lines 132-153: prepend each adjacent `#` comment's
trimmed text, continuing only across whitespace made of a single newline, and
prepending a joining space before inspecting the next token. -/
def lineCommentMerge (tok : Token) (rest : List Token) (result : List Char) : List Char :=
  if tok.kind ≠ .comment then result
  else if tok.text.head? ≠ some '#' then result
  else
    let result := trimRust (commentText tok) ++ result
    match rest with
    | ws :: rest2 =>
      if ws.kind = .whitespace then
        match ws.text with
        | '\n' :: trail =>
          if trail.contains '\n' then result
          else
            match rest2 with
            | c :: rest3 => lineCommentMerge c rest3 (' ' :: result)
            | [] => ' ' :: result
        | _ => result
      else result
    | [] => result

/-- `retrieve_doc_comment` from src/main.rs, over the closest-first list of
tokens preceding the node's first token. -/
def retrieve_doc_comment (prevToks : List Token) (allowLineComments : Bool) :
    Option (List Char) := do
  let (tok, rest) ← prevSkipWs prevToks
  if tok.kind ≠ .comment then none
  else do
    let (tok, rest) ←
      if allowLineComments then some (tok, rest) else backtrackToBlock tok rest
    if startsWithL (str "/*") tok.text then some (commentText tok)
    else if tok.text.head? = some '#' then some (lineCommentMerge tok rest [])
    else none

/-! ## The syntax tree model -/

/-- rnix node kinds relevant to the core; every other node kind is collapsed
into `exprOther` (an expression) or `otherNode` (not an expression). -/
inductive NodeKind
  | root
  | attrSet
  | letIn
  | apv
  | inh
  | inhFrom
  | lambda
  | identParam
  | pattern
  | patEntry
  | attrpath
  | ident
  | exprOther
  | otherNode
  deriving Repr, DecidableEq

/-- A rowan green tree: interior nodes with kinds, token leaves.  Children are
in source order and include the trivia (whitespace and comment) tokens. -/
inductive SyntaxTree
  | tok (t : Token)
  | node (k : NodeKind) (children : List SyntaxTree)
  deriving Repr

mutual

/-- All tokens of a subtree, in source order. -/
def SyntaxTree.tokens : SyntaxTree → List Token
  | .tok t => [t]
  | .node _ cs => tokensList cs

/-- Tokens of a forest, in source order. -/
def tokensList : List SyntaxTree → List Token
  | [] => []
  | c :: cs => c.tokens ++ tokensList cs

end

/-- Source text of a subtree (rowan's `Display`/`to_string`, and rowan
`SyntaxText` for single-token nodes). -/
def SyntaxTree.text (t : SyntaxTree) : List Char := (t.tokens.map Token.text).flatten

/-- Tokens of a subtree, closest-first (for building backward contexts). -/
def SyntaxTree.tokensRev (t : SyntaxTree) : List Token := t.tokens.reverse

/-- The node kind of a subtree, if it is a node. -/
def SyntaxTree.kind? : SyntaxTree → Option NodeKind
  | .tok _ => none
  | .node k _ => some k

/-- Is the subtree a node of the given kind? -/
def SyntaxTree.hasKind (t : SyntaxTree) (k : NodeKind) : Bool := t.kind? == some k

/-- Is the subtree an interior node (vs a token)? -/
def isNodeTree : SyntaxTree → Bool
  | .tok _ => false
  | .node _ _ => true

/-- Node kinds on which rnix `Expr::cast` succeeds. -/
def isExprKind : NodeKind → Bool
  | .attrSet | .letIn | .lambda | .ident | .exprOther => true
  | _ => false

/-- Does rnix `Expr::cast` succeed on this subtree? -/
def isExprTree (t : SyntaxTree) : Bool :=
  match t.kind? with
  | some k => isExprKind k
  | none => false

/-- Does rnix `Param::cast` succeed on this subtree? -/
def isParamTree (t : SyntaxTree) : Bool := t.hasKind .identParam || t.hasKind .pattern

/-- The children of a node paired with their backward token contexts: the
context of each child is the closest-first list of all tokens preceding it in
the file. -/
def ctxChildren (ctx : List Token) : List SyntaxTree → List (List Token × SyntaxTree)
  | [] => []
  | c :: rest => (ctx, c) :: ctxChildren (c.tokensRev ++ ctx) rest

/-- First child node of the given kind (the rnix generated typed accessors
`attrpath()`, `ident()`, ... search the child nodes in order). -/
def firstNodeOfKind (k : NodeKind) (t : SyntaxTree) : Option SyntaxTree :=
  match t with
  | .tok _ => none
  | .node _ cs => cs.find? (fun c => c.hasKind k)

mutual

/-- rowan preorder `Enter` events for the nodes of a subtree (the subtree's
own node first), each paired with its backward token context. -/
def preorderTree (ctx : List Token) : SyntaxTree → List (List Token × SyntaxTree)
  | .tok _ => []
  | .node k cs => (ctx, .node k cs) :: preorderKids ctx cs

/-- Preorder events of a forest with running token contexts. -/
def preorderKids (ctx : List Token) : List SyntaxTree → List (List Token × SyntaxTree)
  | [] => []
  | c :: rest => preorderTree ctx c ++ preorderKids (c.tokensRev ++ ctx) rest

end

/-! ## The entry data model and the collectors -/

/-- Modelled from the spec: `SingleArg` is declared in the commonmark module,
which is not part of src/; §3 of the design gives its shape. -/
structure SingleArg where
  name : List Char
  doc : Option (List Char)
  deriving Repr, DecidableEq

/-- Modelled from the spec: the `Argument` tagged union of the commonmark
module — a flat parameter or a destructuring pattern (§3). -/
inductive Argument
  | Flat (arg : SingleArg)
  | Pattern (args : List SingleArg)
  deriving Repr, DecidableEq

/-- Modelled from the spec: the `ManualEntry` record of the commonmark module;
its fields are exactly those populated by `DocItem::into_entry` (src/main.rs
lines 83-97). -/
structure ManualEntry where
  category : List Char
  name : List Char
  description : List (List Char)
  fn_type : Option (List Char)
  example' : Option (List Char)
  args : List Argument
  deriving Repr, DecidableEq

/-- `DocItem` from src/main.rs. -/
structure DocItem where
  name : List Char
  comment : DocComment
  args : List Argument
  deriving Repr, DecidableEq

/-- `DocItem::into_entry`: the description is the doc split on blank lines. -/
def DocItem.into_entry (di : DocItem) (category : List Char) : ManualEntry :=
  { category := category
    name := di.name
    description := splitOnDoubleLF di.comment.doc
    fn_type := di.comment.doc_type
    example' := di.comment.example'
    args := di.args }

/-- The `unwrap` (panic) sites reachable in the extraction core:
`lambda.param().unwrap()` (line 250), `entry.ident().unwrap()` (line 261),
`node.attrpath().unwrap()` (line 163), and
`LetIn::cast(n).unwrap().body().unwrap()` (line 346). -/
inductive Panic
  | missingParam
  | missingPatEntryIdent
  | missingAttrpath
  | missingLetInBody
  deriving Repr, DecidableEq

/-- Did the computation avoid every panic? -/
def okE {α : Type} : Except Panic α → Bool
  | .ok _ => true
  | .error _ => false

/-- `retrieve_doc_comment` on a node: `node.first_token()?` fails on an empty
node, then the backward walk runs on the node's preceding tokens. -/
def retrieveDocCommentNode (ctx : List Token) (t : SyntaxTree) (allow : Bool) :
    Option (List Char) :=
  match t.tokens with
  | [] => none
  | _ :: _ => retrieve_doc_comment ctx allow

/-- `retrieve_doc_item` from src/main.rs: nothing without a qualifying
comment; with one, the attrpath is unwrapped (panic when absent) and its
verbatim source text becomes the name. -/
def retrieve_doc_item (ctx : List Token) (t : SyntaxTree) : Except Panic (Option DocItem) :=
  match retrieveDocCommentNode ctx t false with
  | none => .ok none
  | some comment =>
    match firstNodeOfKind .attrpath t with
    | none => .error .missingAttrpath
    | some ap =>
      .ok (some { name := ap.text, comment := parse_doc_comment comment, args := [] })

/-- One entry of a destructuring pattern (lines 258-264):
`entry.ident().unwrap()` names it, its own comment is looked up with line
comments allowed. -/
def patEntryArg (ectx : List Token) (e : SyntaxTree) : Except Panic SingleArg :=
  match firstNodeOfKind .ident e with
  | none => .error .missingPatEntryIdent
  | some i => .ok { name := i.text, doc := retrieveDocCommentNode ectx e true }

/-- The match on `lambda.param().unwrap()` (lines 250-268): a flat identifier
parameter or a destructuring pattern. -/
def paramArg (pctx : List Token) (p : SyntaxTree) : Except Panic Argument :=
  if p.hasKind .identParam then
    .ok (.Flat { name := p.text, doc := retrieveDocCommentNode pctx p true })
  else
    match p with
    | .node _ pcs => do
      let entries ← ((ctxChildren pctx pcs).filter (fun x => x.2.hasKind .patEntry)).mapM
        (fun x => patEntryArg x.1 x.2)
      .ok (.Pattern entries)
    | .tok _ => .ok (.Pattern [])

mutual

/-- `collect_lambda_args` from src/main.rs: one argument per curry level;
`lambda.param()` is `unwrap`ped (panic when the lambda has no parameter). -/
def collect_lambda_args (ctx : List Token) : SyntaxTree → Except Panic (List Argument)
  | .tok _ => .error .missingParam
  | .node _ cs =>
    match (ctxChildren ctx cs).find? (fun x => isParamTree x.2) with
    | none => .error .missingParam
    | some pc => do
      let arg ← paramArg pc.1 pc.2
      let rest ← collectLambdaBody ctx cs
      .ok (arg :: rest)

/-- The `lambda.body()` step of lines 271-274: the first expression child is
the body; a lambda body continues the chain, anything else ends it. -/
def collectLambdaBody (ctx : List Token) : List SyntaxTree → Except Panic (List Argument)
  | [] => .ok []
  | c :: rest =>
    if isExprTree c then
      (if c.hasKind .lambda then collect_lambda_args ctx c else .ok [])
    else collectLambdaBody (c.tokensRev ++ ctx) rest

end

mutual

/-- The number of curry levels `collect_lambda_args` visits: one for this
lambda plus the levels of a lambda-shaped body. -/
def curryDepth : SyntaxTree → Nat
  | .tok _ => 1
  | .node _ cs => 1 + curryBodyDepth cs

/-- Curry levels contributed by the first expression child. -/
def curryBodyDepth : List SyntaxTree → Nat
  | [] => 0
  | c :: rest =>
    if isExprTree c then (if c.hasKind .lambda then curryDepth c else 0)
    else curryBodyDepth rest

end

/-- `collect_entry_information` from src/main.rs: the doc item, with the
lambda arguments filled in when `entry.value()` is a lambda. -/
def collect_entry_information (ctx : List Token) (t : SyntaxTree) : Except Panic (Option DocItem) := do
  match ← retrieve_doc_item ctx t with
  | none => .ok none
  | some di =>
    match t with
    | .node _ cs =>
      match (ctxChildren ctx cs).find? (fun x => isExprTree x.2) with
      | some lc =>
        if lc.2.hasKind .lambda then do
          let args ← collect_lambda_args lc.1 lc.2
          .ok (some { di with args := args })
        else .ok (some di)
      | none => .ok (some di)
    | .tok _ => .ok (some di)

/-- The scope: name-to-entry mapping collected into a `HashMap` (later inserts
win on duplicate names). -/
abbrev Scope := List (List Char × ManualEntry)

/-- `HashMap::get` on a collected association list: the last insert wins. -/
def scopeGet (s : Scope) (key : List Char) : Option ManualEntry :=
  (s.reverse.find? (fun p => p.1 == key)).map Prod.snd

/-- The loop body of `collect_bindings` (lines 309-326) for one child of the
binding set: a plain binding contributes its entry; a re-export without an
explicit source resolves identifier attrs against the scope; a re-export with
an explicit source (`inherit (x) ...`) contributes nothing; every other child
contributes nothing. -/
def bindingChildEntries (scope : Scope) (category : List Char) (cctx : List Token)
    (c : SyntaxTree) : Except Panic (List ManualEntry) :=
  if c.hasKind .apv then do
    match ← collect_entry_information cctx c with
    | some di => .ok [di.into_entry category]
    | none => .ok []
  else if c.hasKind .inh then
    match c with
    | .node _ cs =>
      if cs.any (fun x => x.hasKind .inhFrom) then .ok []
      else
        .ok (cs.filterMap (fun a =>
          if a.hasKind .ident then scopeGet scope a.text else none))
    | .tok _ => .ok []
  else .ok []

/-- `collect_bindings` from src/main.rs: walk the preorder of the given node,
process the children of the first binding set encountered, concatenating each
child's contribution in order. -/
def collect_bindings (ctx : List Token) (node : SyntaxTree) (category : List Char)
    (scope : Scope) : Except Panic (List ManualEntry) :=
  match (preorderTree ctx node).find? (fun x => x.2.hasKind .attrSet) with
  | none => .ok []
  | some ac =>
    match ac.2 with
    | .node _ cs => do
      let ess ← (ctxChildren ac.1 cs).mapM (fun x => bindingChildEntries scope category x.1 x.2)
      .ok ess.flatten
    | .tok _ => .ok []

/-- `LetIn::body()`: the first child on which `Expr::cast` succeeds. -/
def letInBody (nctx : List Token) (cs : List SyntaxTree) : Option (List Token × SyntaxTree) :=
  (ctxChildren nctx cs).find? (fun x => isExprTree x.2)

/-- The scope construction of lines 348-352: the let-in's direct binding
children, each extracted and keyed by name. -/
def buildScope (nctx : List Token) (cs : List SyntaxTree) (category : List Char) :
    Except Panic Scope := do
  let ds ← ((ctxChildren nctx cs).filter (fun x => x.2.hasKind .apv)).mapM
    (fun x => collect_entry_information x.1 x.2)
  .ok (ds.filterMap (fun d => d.map (fun di => (di.name, di.into_entry category))))

/-- `collect_entries` from src/main.rs: at the first let-in node, unwrap its
body (panic when absent), build the scope from its bindings and delegate; at
the first binding set (when it comes first), delegate with an empty scope. -/
def collect_entries (root : SyntaxTree) (category : List Char) : Except Panic (List ManualEntry) :=
  match (preorderTree [] root).find? (fun x => x.2.hasKind .letIn || x.2.hasKind .attrSet) with
  | none => .ok []
  | some nc =>
    if nc.2.hasKind .letIn then
      match nc.2 with
      | .node _ cs =>
        match letInBody nc.1 cs with
        | none => .error .missingLetInBody
        | some bc => do
          let scope ← buildScope nc.1 cs category
          collect_bindings bc.1 bc.2 category scope
      | .tok _ => .ok []
    else collect_bindings nc.1 nc.2 category []

/-- Local structural soundness of one node: a lambda has a parameter, a
pattern entry has an identifier, a binding has an attribute path, a let-in has
a body expression — the four shapes whose absence the core `unwrap`s. -/
def kindOK (k : NodeKind) (cs : List SyntaxTree) : Bool :=
  (k != .lambda || cs.any isParamTree) &&
  (k != .patEntry || cs.any (fun c => c.hasKind .ident)) &&
  (k != .apv || cs.any (fun c => c.hasKind .attrpath)) &&
  (k != .letIn || cs.any isExprTree)

mutual

/-- Structural soundness of a whole subtree. -/
def wfTree : SyntaxTree → Bool
  | .tok _ => true
  | .node k cs => kindOK k cs && wfList cs

/-- Structural soundness of a forest. -/
def wfList : List SyntaxTree → Bool
  | [] => true
  | c :: cs => wfTree c && wfList cs

end

/-! ## Concrete scenario trees (as rnix parses the spec's scenario sources) -/

/-- A whitespace token leaf. -/
def wsTok (s : String) : SyntaxTree := .tok ⟨.whitespace, str s⟩

/-- A comment token leaf. -/
def cmtTok (s : String) : SyntaxTree := .tok ⟨.comment, str s⟩

/-- A plain (non-trivia) token leaf. -/
def plainTok (s : String) : SyntaxTree := .tok ⟨.other, str s⟩

/-- An identifier node wrapping its token. -/
def identNode (s : String) : SyntaxTree := .node .ident [plainTok s]

/-- The inner lambda `b: a + b`. -/
def addLambdaInner : SyntaxTree :=
  .node .lambda [.node .identParam [identNode "b"], plainTok ":", wsTok " ",
    .node .exprOther [plainTok "a", wsTok " ", plainTok "+", wsTok " ", plainTok "b"]]

/-- The lambda `a: b: a + b`. -/
def addLambda : SyntaxTree :=
  .node .lambda [.node .identParam [identNode "a"], plainTok ":", wsTok " ", addLambdaInner]

/-- The binding `add = a: b: a + b;`. -/
def addApv : SyntaxTree :=
  .node .apv [.node .attrpath [identNode "add"], wsTok " ", plainTok "=", wsTok " ",
    addLambda, plainTok ";"]

/-- The binding set `{ /* adds two numbers */ add = a: b: a + b; }`. -/
def addAttrSet : SyntaxTree :=
  .node .attrSet [plainTok "\x7b", wsTok " ", cmtTok "/* adds two numbers */", wsTok " ",
    addApv, wsTok " ", plainTok "\x7d"]

/-- The parsed root of the `add` scenario source. -/
def addRoot : SyntaxTree := .node .root [addAttrSet]

/-- The entry the `add` scenario must produce. -/
def addEntry : ManualEntry :=
  { category := str "math"
    name := str "add"
    description := [str "adds two numbers"]
    fn_type := none
    example' := none
    args := [.Flat ⟨str "a", none⟩, .Flat ⟨str "b", none⟩] }

/-- The lambda `x: x`. -/
def helperLambda : SyntaxTree :=
  .node .lambda [.node .identParam [identNode "x"], plainTok ":", wsTok " ", identNode "x"]

/-- The binding `helper = x: x;`. -/
def helperApv : SyntaxTree :=
  .node .apv [.node .attrpath [identNode "helper"], wsTok " ", plainTok "=", wsTok " ",
    helperLambda, plainTok ";"]

/-- The binding set `{ inherit helper; }`. -/
def helperAttrSet : SyntaxTree :=
  .node .attrSet [plainTok "\x7b", wsTok " ",
    .node .inh [plainTok "inherit", wsTok " ", identNode "helper", plainTok ";"],
    wsTok " ", plainTok "\x7d"]

/-- The construct `let /* helper doc */ helper = x: x; in { inherit helper; }`. -/
def helperLetIn : SyntaxTree :=
  .node .letIn [plainTok "let", wsTok " ", cmtTok "/* helper doc */", wsTok " ",
    helperApv, wsTok " ", plainTok "in", wsTok " ", helperAttrSet]

/-- The parsed root of the `helper` re-export scenario source. -/
def helperRoot : SyntaxTree := .node .root [helperLetIn]

/-- The entry the `helper` scenario must produce. -/
def helperEntry : ManualEntry :=
  { category := str "let"
    name := str "helper"
    description := [str "helper doc"]
    fn_type := none
    example' := none
    args := [.Flat ⟨str "x", none⟩] }

/-- A binding `a.b.c = 1;` whose attribute path is dotted. -/
def abcApv : SyntaxTree :=
  .node .apv [.node .attrpath [identNode "a", plainTok ".", identNode "b", plainTok ".",
    identNode "c"], wsTok " ", plainTok "=", wsTok " ", .node .exprOther [plainTok "1"],
    plainTok ";"]

/-! ## C1: the `add` scenario -/

/-- C1: for the source `{ /* adds two numbers */ add = a: b: a + b; }` with
category `math`, `collect_entries` returns exactly one entry, named `add`,
whose description is `adds two numbers` and whose argument sequence is
`[Flat a, Flat b]`; the same holds for `collect_bindings` on the binding set
under any surrounding token context. -/
theorem C1_add_scenario :
    (∀ ctx : List Token, collect_bindings ctx addAttrSet (str "math") [] = .ok [addEntry]) ∧
      collect_entries addRoot (str "math") = .ok [addEntry] :=
  ⟨fun _ => rfl, rfl⟩

/-! ## C2: whitespace separation before the nearest comment is not inspected -/

/-- C2 is false on the code: a comment separated from the node by a whitespace
token holding three newlines (more than a blank line) is still returned by
`retrieve_doc_comment`, which contradicts the claim that it returns nothing. -/
theorem C2_counterexample :
    retrieve_doc_comment
        [⟨.whitespace, str "\n\n\n"⟩, ⟨.comment, str "/* doc */"⟩] false
      = some (str " doc ") ∧
    retrieve_doc_comment
        [⟨.whitespace, str "\n\n\n"⟩, ⟨.comment, str "/* doc */"⟩] false
      ≠ none :=
  ⟨rfl, by decide⟩

/-- The backtracking loop is a no-op on a token that does not start with `#`. -/
theorem backtrack_nonHash (tok : Token) (rest : List Token)
    (h : tok.text.head? ≠ some '#') : backtrackToBlock tok rest = some (tok, rest) := by
  rw [backtrackToBlock.eq_def]
  simp [h]

/-- C2 (amended): the locator skips exactly one whitespace token without
inspecting its newline count, so a block comment is returned whatever
whitespace — including blank lines — separates it from the node. -/
theorem C2_amended (wsText body : List Char) (rest : List Token) :
    retrieve_doc_comment
        (⟨.whitespace, wsText⟩ :: ⟨.comment, '/' :: '*' :: (body ++ str "*/")⟩ :: rest) false
      = some body := by
  simp [retrieve_doc_comment, prevSkipWs, backtrack_nonHash, startsWithL, commentText,
    dropPrefixL, dropSuffixL, str, List.reverse_append]


/-! ## C10: line comments are skipped over arbitrary whitespace -/

/-- A backward run of line comments: closest first, each `#` comment followed
(one step further from the node) by one whitespace token. -/
def lcChain : List (List Char × List Char) → List Token
  | [] => []
  | (c, w) :: rest => ⟨.comment, '#' :: c⟩ :: ⟨.whitespace, w⟩ :: lcChain rest

/-- The backtracking loop hops over a whole run of line comments, with
arbitrary whitespace at every hop, and stops at the block comment behind it. -/
theorem backtrack_lcChain (body : List Char) (tail : List Token) :
    ∀ (ps : List (List Char × List Char)) (c w : List Char),
      backtrackToBlock ⟨.comment, '#' :: c⟩
          (⟨.whitespace, w⟩ :: (lcChain ps ++ ⟨.comment, '/' :: '*' :: (body ++ ['*', '/'])⟩ :: tail))
        = some (⟨.comment, '/' :: '*' :: (body ++ ['*', '/'])⟩, tail)
  | [], c, w => by
    rw [backtrackToBlock.eq_def]
    simp [lcChain, backtrack_nonHash]
  | (c1, w1) :: ps, c, w => by
    rw [backtrackToBlock.eq_def]
    simp [lcChain]
    exact backtrack_lcChain body tail ps c1 w1

/-- C10: with line comments disallowed, the backward search tolerates any
whitespace — blank lines included — between the skipped line comments and
before the block comment: the block comment's text is still returned. -/
theorem C10_block_behind_line_comments (w0 body : List Char)
    (ps : List (List Char × List Char)) (tail : List Token) :
    retrieve_doc_comment
        (⟨.whitespace, w0⟩ :: (lcChain ps ++ ⟨.comment, '/' :: '*' :: (body ++ ['*', '/'])⟩ :: tail))
        false
      = some body := by
  cases ps with
  | nil =>
    simp [retrieve_doc_comment, prevSkipWs, lcChain, backtrack_nonHash, startsWithL,
      commentText, dropPrefixL, dropSuffixL, str, List.reverse_append]
  | cons p ps =>
    obtain ⟨c0, w1⟩ := p
    simp [retrieve_doc_comment, prevSkipWs, lcChain, backtrack_lcChain body tail ps c0 w1,
      startsWithL, commentText, dropPrefixL, dropSuffixL, str, List.reverse_append]


/-! ## C3: merging adjacent line comments -/

/-- An upward chain of line comments above the closest one: for each pair
`(s, c)`, one whitespace token `'\n' :: s` (a single newline plus trailing
blanks) then the `#` comment `c` above it. -/
def chainRest : List (List Char × List Char) → List Token
  | [] => []
  | (s, c) :: rest => ⟨.whitespace, '\n' :: s⟩ :: ⟨.comment, '#' :: c⟩ :: chainRest rest

/-- The source-order, space-joined trimmed texts of a chain (the closest
comment `c0` comes last in source order). -/
def joinChain (c0 : List Char) : List (List Char × List Char) → List Char
  | [] => trimRust c0
  | (_, c) :: rest => joinChain c rest ++ ' ' :: trimRust c0

/-- The merge loop over a chain of adjacent line comments, parametric in the
terminator `term` and its effect `fin` on the accumulated result. -/
theorem merge_chain (term : List Token) (fin : List Char → List Char)
    (hcont : ∀ (c res : List Char),
      lineCommentMerge ⟨.comment, '#' :: c⟩ term res = fin (trimRust c ++ res)) :
    ∀ (ps : List (List Char × List Char)) (c0 acc : List Char),
      (∀ p ∈ ps, p.1.contains '\n' = false) →
      lineCommentMerge ⟨.comment, '#' :: c0⟩ (chainRest ps ++ term) acc
        = fin (joinChain c0 ps ++ acc)
  | [], c0, acc, _ => by simpa [chainRest, joinChain] using hcont c0 acc
  | (s1, c1) :: ps, c0, acc, h => by
    have hs1 : ¬ ('\n' ∈ s1) := by simpa using h (s1, c1) (by simp)
    have ih := merge_chain term fin hcont ps c1 (' ' :: (trimRust c0 ++ acc))
      (fun p hp => h p (by simp [hp]))
    rw [chainRest]
    rw [lineCommentMerge.eq_def]
    simp [commentText, dropPrefixL, hs1]
    rw [ih]
    simp [joinChain]

/-- Merge terminator: start of file — the trimmed text is prepended as is. -/
theorem merge_term_nil (c res : List Char) :
    lineCommentMerge ⟨.comment, '#' :: c⟩ [] res = id (trimRust c ++ res) := by
  rw [lineCommentMerge.eq_def]
  simp [commentText, dropPrefixL]

/-- Merge terminator: a blank line (two or more newlines) — the chain breaks
with no joining space. -/
theorem merge_term_blank (u : List Char) (tr : List Token) (c res : List Char) :
    lineCommentMerge ⟨.comment, '#' :: c⟩ (⟨.whitespace, '\n' :: '\n' :: u⟩ :: tr) res
      = id (trimRust c ++ res) := by
  rw [lineCommentMerge.eq_def]
  simp [commentText, dropPrefixL]

/-- Merge terminator: a single newline followed by a non-comment token — the
joining space is prepended before the loop discovers the token and stops. -/
theorem merge_term_tok (tk : Token) (htk : tk.kind ≠ .comment) (tr : List Token)
    (c res : List Char) :
    lineCommentMerge ⟨.comment, '#' :: c⟩ (⟨.whitespace, ['\n']⟩ :: tk :: tr) res
      = ' ' :: (trimRust c ++ res) := by
  rw [lineCommentMerge.eq_def]
  simp only [commentText, dropPrefixL]
  rw [lineCommentMerge.eq_def]
  simp [htk, commentText, dropPrefixL]

/-- C3 is false on the code as stated: a single-comment run whose whitespace
above is one newline followed by a further token is returned as `" doc"` — a
leading space — where the claimed space-join of trimmed texts is `"doc"`. -/
theorem C3_counterexample :
    retrieve_doc_comment
        [⟨.whitespace, ['\n']⟩, ⟨.comment, str "# doc"⟩, ⟨.whitespace, ['\n']⟩,
         ⟨.other, str "x"⟩] true
      = some (' ' :: str "doc") ∧ (' ' :: str "doc") ≠ str "doc" :=
  ⟨rfl, by decide⟩

/-- C3 (amended): a maximal run of adjacent line comments is merged into the
space-join of the trimmed texts in source order; the join is returned exactly
when the run is delimited above by the start of file or by a blank line, and
with one extra leading space when a further token sits on the line directly
above; a blank line inside a longer run would delimit it the same way. -/
theorem C3_amended (wN c0 : List Char) (ps : List (List Char × List Char))
    (h : ∀ p ∈ ps, p.1.contains '\n' = false) :
    (retrieve_doc_comment (⟨.whitespace, wN⟩ :: ⟨.comment, '#' :: c0⟩ :: chainRest ps) true
       = some (joinChain c0 ps)) ∧
    (∀ (u : List Char) (tr : List Token),
       retrieve_doc_comment
           (⟨.whitespace, wN⟩ :: ⟨.comment, '#' :: c0⟩ ::
             (chainRest ps ++ ⟨.whitespace, '\n' :: '\n' :: u⟩ :: tr)) true
         = some (joinChain c0 ps)) ∧
    (∀ (tk : Token) (tr : List Token), tk.kind ≠ .comment →
       retrieve_doc_comment
           (⟨.whitespace, wN⟩ :: ⟨.comment, '#' :: c0⟩ ::
             (chainRest ps ++ ⟨.whitespace, ['\n']⟩ :: tk :: tr)) true
         = some (' ' :: joinChain c0 ps)) := by
  refine ⟨?_, fun u tr => ?_, fun tk tr htk => ?_⟩
  · have h1 := merge_chain [] id merge_term_nil ps c0 [] h
    simp only [List.append_nil, id_eq] at h1
    simp [retrieve_doc_comment, prevSkipWs, startsWithL, dropPrefixL, h1]
  · have h1 := merge_chain (⟨.whitespace, '\n' :: '\n' :: u⟩ :: tr) id
      (merge_term_blank u tr) ps c0 [] h
    simp only [id_eq] at h1
    simp [retrieve_doc_comment, prevSkipWs, startsWithL, dropPrefixL, h1]
  · have h1 := merge_chain (⟨.whitespace, ['\n']⟩ :: tk :: tr) (fun l => ' ' :: l)
      (merge_term_tok tk htk tr) ps c0 [] h
    simp only [] at h1
    simp [retrieve_doc_comment, prevSkipWs, startsWithL, dropPrefixL, h1]

/-- Witness for C3 (amended) at the concrete two-comment run `# a` over `# b`:
the merge yields `a b`. -/
theorem C3_witness :
    retrieve_doc_comment
        (⟨.whitespace, ['\n']⟩ :: ⟨.comment, '#' :: str " b"⟩ :: chainRest [([], str " a")])
        true
      = some (joinChain (str " b") [([], str " a")]) :=
  (C3_amended ['\n'] (str " b") [([], str " a")] (by decide)).1


/-! ## C9: the entry name is the attrpath's verbatim source text -/

/-- C9: whenever `retrieve_doc_item` yields an item, its name is exactly the
verbatim source text of the binding's whole attribute path; on the concrete
dotted binding `a.b.c = 1;` the name is `a.b.c`, with no splitting, rejection
or normalization. -/
theorem C9_name_is_attrpath_text :
    (∀ (ctx : List Token) (t : SyntaxTree) (item : DocItem),
        retrieve_doc_item ctx t = .ok (some item) →
        ∃ ap, firstNodeOfKind .attrpath t = some ap ∧ item.name = ap.text) ∧
      retrieve_doc_item [⟨.whitespace, str " "⟩, ⟨.comment, str "/* d */"⟩] abcApv
        = .ok (some { name := str "a.b.c",
                      comment := { doc := str "d", doc_type := none, example' := none },
                      args := [] }) := by
  constructor
  · intro ctx t item h
    unfold retrieve_doc_item at h
    cases hc : retrieveDocCommentNode ctx t false with
    | none => rw [hc] at h; simp at h
    | some cm =>
      rw [hc] at h
      cases hap : firstNodeOfKind .attrpath t with
      | none => rw [hap] at h; simp at h
      | some ap =>
        rw [hap] at h
        simp only [Except.ok.injEq, Option.some.injEq] at h
        exact ⟨ap, rfl, by rw [← h]⟩
  · rfl

/-- Witness for C9 at the concrete dotted binding. -/
theorem C9_witness :
    ∃ ap, firstNodeOfKind .attrpath abcApv = some ap ∧
      ({ name := str "a.b.c",
         comment := { doc := str "d", doc_type := none, example' := none },
         args := [] } : DocItem).name = ap.text :=
  C9_name_is_attrpath_text.1 [⟨.whitespace, str " "⟩, ⟨.comment, str "/* d */"⟩] abcApv
    { name := str "a.b.c",
      comment := { doc := str "d", doc_type := none, example' := none }, args := [] } rfl

/-! ## C8: one argument per curry level, stopping at the first non-lambda body -/

/-- `Except.ok` feeds the continuation. -/
theorem exc_bind_ok {α β : Type} (a : α) (f : α → Except Panic β) :
    (Except.ok a >>= f) = f a := rfl

/-- `Except.error` short-circuits the continuation. -/
theorem exc_bind_err {α β : Type} (e : Panic) (f : α → Except Panic β) :
    ((Except.error e : Except Panic α) >>= f) = .error e := rfl

mutual

/-- A successful `collect_lambda_args` returns one argument per curry level. -/
theorem cla_length : ∀ (t : SyntaxTree) (ctx : List Token) (args : List Argument),
    collect_lambda_args ctx t = .ok args → args.length = curryDepth t
  | .tok _, ctx, args => by simp [collect_lambda_args]
  | .node k cs, ctx, args => by
    intro h
    rw [collect_lambda_args] at h
    cases hf : (ctxChildren ctx cs).find? (fun x => isParamTree x.2) with
    | none => rw [hf] at h; simp at h
    | some pc =>
      rw [hf] at h
      cases hp : paramArg pc.1 pc.2 with
      | error e => simp only [hp, exc_bind_err] at h; simp at h
      | ok arg =>
        cases hb : collectLambdaBody ctx cs with
        | error e => simp only [hp, hb, exc_bind_ok, exc_bind_err] at h; simp at h
        | ok rest =>
          simp only [hp, hb, exc_bind_ok, Except.ok.injEq] at h
          have ih := claBody_length cs ctx rest hb
          rw [curryDepth, ← h]
          simp [ih]
          omega

/-- A successful body scan returns one argument per curry level of the body. -/
theorem claBody_length : ∀ (cs : List SyntaxTree) (ctx : List Token) (args : List Argument),
    collectLambdaBody ctx cs = .ok args → args.length = curryBodyDepth cs
  | [], ctx, args => by
    intro h
    simp only [collectLambdaBody, Except.ok.injEq] at h
    simp [curryBodyDepth, ← h]
  | c :: rest, ctx, args => by
    intro h
    rw [collectLambdaBody] at h
    rw [curryBodyDepth]
    split at h
    · split at h
      · next he hl =>
          simp only [he, hl, if_true]
          exact cla_length c ctx args h
      · next he hl =>
          simp only [Except.ok.injEq] at h
          simp [he, hl, ← h]
    · next he =>
        simp only [he, if_false]
        exact claBody_length rest _ args h

end

/-- C8: the parameter collector's traversal is total (it is a function in this
development), returns one argument per curry level visited, and stops the
first time the body is not a lambda node — a non-lambda first expression child
(a conditional, say) ends the scan at once with no further arguments. -/
theorem C8_one_arg_per_curry_level :
    (∀ (ctx : List Token) (t : SyntaxTree) (args : List Argument),
        collect_lambda_args ctx t = .ok args → args.length = curryDepth t) ∧
    (∀ (ctx : List Token) (c : SyntaxTree) (cs : List SyntaxTree),
        isExprTree c = true → c.hasKind .lambda = false →
        collectLambdaBody ctx (c :: cs) = .ok []) := by
  constructor
  · intro ctx t args h
    exact cla_length t ctx args h
  · intro ctx c cs he hl
    rw [collectLambdaBody]
    simp [he, hl]

/-- Witness for C8 at the concrete curried lambda `a: b: a + b` (two levels)
and a non-lambda body child. -/
theorem C8_witness :
    ([Argument.Flat ⟨str "a", none⟩, Argument.Flat ⟨str "b", none⟩] : List Argument).length
        = curryDepth addLambda ∧
      collectLambdaBody [] [.node .exprOther []] = .ok [] :=
  ⟨C8_one_arg_per_curry_level.1 [] addLambda
      [Argument.Flat ⟨str "a", none⟩, Argument.Flat ⟨str "b", none⟩] rfl,
    C8_one_arg_per_curry_level.2 [] (.node .exprOther []) [] rfl rfl⟩


/-! ## C7: re-exports — let-bound entries resolved, explicit-source skipped -/

/-- C7: on `let /* helper doc */ helper = x: x; in { inherit helper; }` the
final sequence holds exactly the `helper` entry built from the comment at the
let-binding site; and every re-export with an explicit source namespace
(`inherit (x) ...`, a node holding an inherit-from child) contributes no
entries whatever the scope holds. -/
theorem C7_inherit_resolution :
    collect_entries helperRoot (str "let") = .ok [helperEntry] ∧
    (∀ (scope : Scope) (category : List Char) (cctx : List Token) (cs : List SyntaxTree),
        cs.any (fun x => x.hasKind .inhFrom) = true →
        bindingChildEntries scope category cctx (.node .inh cs) = .ok []) := by
  constructor
  · rfl
  · intro scope category cctx cs hfrom
    have h1 : (SyntaxTree.node .inh cs).hasKind .apv = false := rfl
    have h2 : (SyntaxTree.node .inh cs).hasKind .inh = true := rfl
    simp only [bindingChildEntries, h1, h2, Bool.false_eq_true, if_false, if_true, hfrom]

/-- Witness for C7 at a concrete `inherit (someSet) helper;` clause with a
scope that does hold `helper`. -/
theorem C7_witness :
    bindingChildEntries [(str "helper", helperEntry)] (str "let") []
        (.node .inh [plainTok "inherit", .node .inhFrom [plainTok "(", identNode "someSet",
          plainTok ")"], wsTok " ", identNode "helper", plainTok ";"])
      = .ok [] :=
  C7_inherit_resolution.2 [(str "helper", helperEntry)] (str "let") []
    [plainTok "inherit", .node .inhFrom [plainTok "(", identNode "someSet", plainTok ")"],
      wsTok " ", identNode "helper", plainTok ";"] rfl


/-! ## C4: idempotence of `handle_indentation` -/

/-- Is the first character absent or not whitespace? -/
def headNotWs (l : List Char) : Bool :=
  match l.head? with
  | some c => !isRustWs c
  | none => true

/-- Is the last character absent or not whitespace? -/
def lastNotWs (l : List Char) : Bool :=
  match l.getLast? with
  | some c => !isRustWs c
  | none => true

theorem headNotWs_dropWhile (s : List Char) : headNotWs (s.dropWhile isRustWs) = true := by
  induction s with
  | nil => rfl
  | cons c s ih =>
    by_cases h : isRustWs c
    · simpa [List.dropWhile_cons, h] using ih
    · simp [List.dropWhile_cons, h, headNotWs]

theorem trimStartL_headNotWs (s : List Char) : headNotWs (trimStartL s) = true :=
  headNotWs_dropWhile s

theorem trimEndL_lastNotWs (s : List Char) : lastNotWs (trimEndL s) = true := by
  unfold trimEndL lastNotWs
  rw [List.getLast?_reverse]
  have := headNotWs_dropWhile s.reverse
  unfold headNotWs at this
  exact this

theorem getLast?_eq_reverse_head? (s : List Char) : s.getLast? = s.reverse.head? := by
  rw [← List.getLast?_reverse s.reverse, List.reverse_reverse]

theorem trimEndL_isPrefix (s : List Char) : trimEndL s <+: s := by
  have h2 : s = (s.reverse.dropWhile isRustWs).reverse ++ (s.reverse.takeWhile isRustWs).reverse := by
    rw [← List.reverse_append, List.takeWhile_append_dropWhile, List.reverse_reverse]
  unfold trimEndL
  conv_rhs => rw [h2]
  exact List.prefix_append _ _

theorem trimStartL_eq_self (s : List Char) (h : headNotWs s = true) : trimStartL s = s := by
  cases s with
  | nil => rfl
  | cons c cs =>
    unfold headNotWs at h
    simp at h
    simp [trimStartL, List.dropWhile_cons, h]

theorem trimEndL_eq_self (s : List Char) (h : lastNotWs s = true) : trimEndL s = s := by
  unfold trimEndL
  rw [show s.reverse.dropWhile isRustWs = s.reverse from ?_, List.reverse_reverse]
  unfold lastNotWs at h
  rw [getLast?_eq_reverse_head?] at h
  cases hr : s.reverse with
  | nil => rfl
  | cons c cs =>
    rw [hr] at h
    simp at h
    simp [List.dropWhile_cons, h]

theorem trimRust_headNotWs (s : List Char) : headNotWs (trimRust s) = true := by
  unfold trimRust
  rcases hp : trimEndL (trimStartL s) with _ | ⟨c, cs⟩
  · rfl
  · have hpre : trimEndL (trimStartL s) <+: trimStartL s := trimEndL_isPrefix _
    rw [hp] at hpre
    obtain ⟨t, ht⟩ := hpre
    have h1 := trimStartL_headNotWs s
    rw [← ht] at h1
    unfold headNotWs at h1 ⊢
    simpa using h1

theorem trimRust_lastNotWs (s : List Char) : lastNotWs (trimRust s) = true :=
  trimEndL_lastNotWs _

theorem trimRust_eq_self (s : List Char) (h1 : headNotWs s = true) (h2 : lastNotWs s = true) :
    trimRust s = s := by
  unfold trimRust
  rw [trimStartL_eq_self s h1, trimEndL_eq_self s h2]

theorem trimRust_idem (s : List Char) : trimRust (trimRust s) = trimRust s :=
  trimRust_eq_self _ (trimRust_headNotWs s) (trimRust_lastNotWs s)

theorem allWs_trimRust_nil (s : List Char) (h : allWs s = true) : trimRust s = [] := by
  unfold trimRust trimStartL
  rw [List.dropWhile_eq_nil_iff.mpr (by simpa [allWs, List.all_eq_true] using h)]
  rfl

theorem trimRust_nil_allWs (s : List Char) (h : trimRust s = []) : allWs s = true := by
  unfold trimRust trimEndL at h
  have h1 : s.reverse.dropWhile isRustWs = [] ∨ True := Or.inr trivial
  -- from reverse = [] we get dropWhile of reverse of trimStartL is []
  have h2 : (trimStartL s).reverse.dropWhile isRustWs = [] := by
    have := congrArg List.reverse h
    simpa using this
  have h3 : ∀ c ∈ (trimStartL s).reverse, isRustWs c = true := List.dropWhile_eq_nil_iff.mp h2
  have h4 : ∀ c ∈ trimStartL s, isRustWs c = true := by
    intro c hc
    exact h3 c (by simpa using hc)
  have h5 : ∀ c ∈ s.takeWhile isRustWs, isRustWs c = true := by
    intro c hc
    exact List.mem_takeWhile_imp hc
  rw [allWs, List.all_eq_true]
  intro c hc
  rw [← List.takeWhile_append_dropWhile (p := isRustWs) (l := s)] at hc
  rcases List.mem_append.mp hc with h | h
  · exact h5 c h
  · exact h4 c h

theorem trimRust_nil_iff (s : List Char) : trimRust s = [] ↔ allWs s = true :=
  ⟨trimRust_nil_allWs s, allWs_trimRust_nil s⟩

theorem splitLF_ne_nil (s : List Char) : splitLF s ≠ [] := by
  cases s with
  | nil => simp [splitLF]
  | cons c rest =>
    rw [splitLF]
    by_cases h : c = '\n'
    · simp [h]
    · simp only [h, if_false]
      cases splitLF rest <;> simp

theorem splitLF_join (s : List Char) :
    ((splitLF s).map (· ++ ['\n'])).flatten = s ++ ['\n'] := by
  induction s with
  | nil => simp [splitLF]
  | cons c rest ih =>
    rw [splitLF]
    by_cases h : c = '\n'
    · simp [h, ih]
    · simp only [h, if_false]
      cases hs : splitLF rest with
      | nil => exact absurd hs (splitLF_ne_nil rest)
      | cons s0 ss =>
        rw [hs] at ih
        simp only [List.map_cons, List.flatten_cons] at ih ⊢
        simp [← List.append_assoc] at ih ⊢
        exact ih

theorem mem_of_mem_splitLF (s : List Char) :
    ∀ seg ∈ splitLF s, ∀ c ∈ seg, c ∈ s := by
  induction s with
  | nil => intro seg hseg c hc; simp [splitLF] at hseg; simp [hseg] at hc
  | cons a rest ih =>
    intro seg hseg c hc
    rw [splitLF] at hseg
    by_cases h : a = '\n'
    · simp only [h, if_true] at hseg
      rcases List.mem_cons.mp hseg with h1 | h1
      · simp [h1] at hc
      · exact List.mem_cons_of_mem _ (ih seg h1 c hc)
    · simp only [h, if_false] at hseg
      cases hs : splitLF rest with
      | nil => exact absurd hs (splitLF_ne_nil rest)
      | cons s0 ss =>
        rw [hs] at hseg
        rcases List.mem_cons.mp hseg with h1 | h1
        · subst h1
          rcases List.mem_cons.mp hc with h2 | h2
          · simp [h2]
          · exact List.mem_cons_of_mem _ (ih s0 (by rw [hs]; exact List.mem_cons_self _ _) c h2)
        · exact List.mem_cons_of_mem _ (ih seg (by rw [hs]; exact List.mem_cons_of_mem _ h1) c hc)

theorem getLast?_cons_ne {α : Type} (a : α) (l : List α) (h : l ≠ []) :
    (a :: l).getLast? = l.getLast? := by
  cases l with
  | nil => exact absurd rfl h
  | cons b bs => exact List.getLast?_cons_cons

theorem splitLF_singleton_nil (rest : List Char) (hs : splitLF rest = [[]]) : rest = [] := by
  cases rest with
  | nil => rfl
  | cons b bs =>
    rw [splitLF] at hs
    by_cases hb : b = '\n'
    · simp only [hb, if_true] at hs
      simp at hs
      exact absurd hs (splitLF_ne_nil bs)
    · simp only [hb, if_false] at hs
      cases hbs : splitLF bs with
      | nil => exact absurd hbs (splitLF_ne_nil bs)
      | cons t ts =>
        rw [hbs] at hs
        simp at hs

theorem getLast?_splitLF (s : List Char) (h : endsLF s = true) :
    (splitLF s).getLast? = some [] := by
  induction s with
  | nil => simp [endsLF] at h
  | cons a rest ih =>
    rw [splitLF]
    by_cases hrest : rest = []
    · subst hrest
      unfold endsLF at h
      simp at h
      simp [h, splitLF]
    · have hend : endsLF rest = true := by
        unfold endsLF at h ⊢
        rwa [getLast?_cons_ne a rest hrest] at h
      have ihh := ih hend
      by_cases ha : a = '\n'
      · simp only [ha, if_true]
        rw [getLast?_cons_ne _ _ (splitLF_ne_nil rest)]
        exact ihh
      · simp only [ha, if_false]
        cases hs : splitLF rest with
        | nil => exact absurd hs (splitLF_ne_nil rest)
        | cons s0 ss =>
          rw [hs] at ihh
          cases ss with
          | nil =>
            simp at ihh
            subst ihh
            exact absurd (splitLF_singleton_nil rest hs) hrest
          | cons s1 ss1 =>
            simp only [List.getLast?_cons_cons] at ihh ⊢
            exact ihh

theorem stripCR_eq_self (seg : List Char) (h : ¬ '\r' ∈ seg) : stripCR seg = seg := by
  unfold stripCR
  cases hl : seg.getLast? with
  | none => simp
  | some c =>
    have hc : c ∈ seg := by
      have := List.dropLast_append_getLast? c hl
      rw [← this]
      simp
    by_cases hcr : c = '\r'
    · subst hcr; exact absurd hc h
    · simp [hcr]

theorem linesRust_noCR (s : List Char) (h : ¬ '\r' ∈ s) :
    linesRust s =
      (if s = [] then [] else if endsLF s then (splitLF s).dropLast else splitLF s) := by
  unfold linesRust
  by_cases hnil : s = []
  · simp [hnil]
  · simp only [hnil, if_false]
    have hmap : ∀ (l : List (List Char)), (∀ seg ∈ l, ¬ '\r' ∈ seg) → l.map stripCR = l := by
      intro l hl
      induction l with
      | nil => rfl
      | cons x xs ih =>
        simp only [List.map_cons]
        rw [stripCR_eq_self x (hl x (by simp)), ih (fun seg hs => hl seg (by simp [hs]))]
    by_cases he : endsLF s
    · simp only [he, if_true]
      apply hmap
      intro seg hseg hcr
      exact h (mem_of_mem_splitLF s seg (List.mem_of_mem_dropLast hseg) '\r' hcr)
    · simp only [he, if_false]
      apply hmap
      intro seg hseg hcr
      exact h (mem_of_mem_splitLF s seg hseg '\r' hcr)

/-- Is the line empty or starting with a non-whitespace character? -/
def goodLine : List Char → Bool
  | [] => true
  | c :: _ => !isRustWs c

theorem findPrefixSplit_fst_nil (ls : List (List Char))
    (h : ∀ l ∈ ls, goodLine l = true) : (findPrefixSplit ls).1 = [] := by
  induction ls with
  | nil => rfl
  | cons l rest ih =>
    rw [findPrefixSplit]
    cases l with
    | nil => simpa using ih (fun x hx => h x (by simp [hx]))
    | cons c cs =>
      have hg : goodLine (c :: cs) = true := h _ (by simp)
      unfold goodLine at hg
      simp only at hg
      have hcw : isRustWs c = false := by simpa using hg
      simp [List.takeWhile_cons, hcw]

theorem foldl_shrink_nil (rest : List (List Char)) :
    rest.foldl shrinkStep [] = [] := by
  induction rest with
  | nil => rfl
  | cons l ls ih =>
    rw [List.foldl_cons]
    have hz : shrinkStep [] l = [] := by
      unfold shrinkStep
      have h0 : commonPrefixLen l [] = 0 := by cases l <;> rfl
      simp [h0]
    rw [hz, ih]

theorem dedentRebuild_good (ls : List (List Char)) (h : ∀ l ∈ ls, goodLine l = true) :
    dedentRebuild [] ls = (ls.map (· ++ ['\n'])).flatten := by
  unfold dedentRebuild
  congr 1
  apply List.map_congr_left
  intro l hl
  have hg := h l hl
  cases l with
  | nil => simp
  | cons c cs =>
    unfold goodLine at hg
    simp only at hg
    have hcw : isRustWs c = false := by simpa using hg
    have hnw : allWs (c :: cs) = false := by simp [allWs, hcw]
    simp [hnw, List.isPrefixOf]

theorem dedent_fix (r : List Char) (hnc : ¬ '\r' ∈ r)
    (hg : ∀ l ∈ linesRust r, goodLine l = true) : dedent r = r := by
  simp only [dedent]
  rw [findPrefixSplit_fst_nil (linesRust r) hg, foldl_shrink_nil, dedentRebuild_good _ hg]
  by_cases hr : r = []
  · subst hr
    simp [linesRust]
  · by_cases he : endsLF r
    · rw [linesRust_noCR r hnc]
      simp only [hr, if_false, he, if_true]
      have hlast := getLast?_splitLF r he
      have hdecomp := List.dropLast_append_getLast? [] hlast
      have hjoin := splitLF_join r
      rw [← hdecomp] at hjoin
      simp only [List.map_append, List.flatten_append, List.map_cons, List.map_nil,
        List.flatten_cons, List.flatten_nil, List.nil_append, List.append_nil] at hjoin
      have hmain : (((splitLF r).dropLast.map (· ++ ['\n'])).flatten) = r :=
        List.append_cancel_right hjoin
      rw [hmain]
      simp [he]
    · rw [linesRust_noCR r hnc]
      simp only [hr, he, Bool.false_eq_true, if_false, ite_false, Bool.not_false]
      rw [splitLF_join r]
      simp [List.getLast?_concat, List.dropLast_concat]

theorem hi_some (s t : List Char) (h : handle_indentation s = some t) :
    trimRust t = t ∧ t ≠ [] := by
  simp only [handle_indentation] at h
  split at h
  · simp at h
  · next hne =>
    simp only [Option.some.injEq] at h
    subst h
    exact ⟨trimRust_idem _, hne⟩

theorem headNotWs_takeWhile_neLF (t : List Char) (h : headNotWs t = true) :
    headNotWs (t.takeWhile (· ≠ '\n')) = true := by
  cases t with
  | nil => rfl
  | cons c ts =>
    unfold headNotWs at h
    simp only [List.head?_cons] at h
    have hcw : isRustWs c = false := by simpa using h
    have hcn : c ≠ '\n' := by
      intro hcc
      subst hcc
      simp [isRustWs] at hcw
    rw [List.takeWhile_cons]
    simp only [hcn, decide_not, decide_eq_true_eq]
    simp [hcn, headNotWs, hcw]

theorem dropWhile_neLF (s : List Char) (h : '\n' ∈ s) :
    s.dropWhile (· ≠ '\n') = '\n' :: (s.dropWhile (· ≠ '\n')).tail := by
  induction s with
  | nil => simp at h
  | cons c cs ih =>
    by_cases hc : c = '\n'
    · subst hc
      simp [List.dropWhile_cons]
    · rw [List.dropWhile_cons]
      have h2 : '\n' ∈ cs := by
        rcases List.mem_cons.mp h with h3 | h3
        · exact absurd h3.symm hc
        · exact h3
      simpa [hc] using ih h2

theorem split_recon (t : List Char) (h : '\n' ∈ t) :
    t = t.takeWhile (· ≠ '\n') ++ '\n' :: (t.dropWhile (· ≠ '\n')).tail := by
  conv_lhs => rw [← List.takeWhile_append_dropWhile (p := fun c => decide (c ≠ '\n')) (l := t)]
  congr 1
  exact dropWhile_neLF t h

/-- C4 (amended): indentation normalization is not idempotent in general; it
is a fixpoint on every normalized result `t` that holds no carriage return,
whose first line carries no trailing whitespace, and whose lines after the
first are each empty or start with a non-whitespace character. -/
theorem C4_amended (s t : List Char)
    (hst : handle_indentation s = some t)
    (hcr : ¬ '\r' ∈ t)
    (hfl : lastNotWs (t.takeWhile (· ≠ '\n')) = true)
    (hgl : ∀ l ∈ linesRust ((t.dropWhile (· ≠ '\n')).tail), goodLine l = true) :
    handle_indentation t = some t := by
  obtain ⟨htrim, hne⟩ := hi_some s t hst
  have hhead : headNotWs t = true := by
    rw [← htrim]
    exact trimRust_headNotWs t
  simp only [handle_indentation, splitOnceLF]
  by_cases hc0 : t.contains '\n' = true
  · have hc : '\n' ∈ t := List.mem_of_elem_eq_true hc0
    rw [if_pos hc0]
    have hf : trimRust (t.takeWhile (· ≠ '\n')) = t.takeWhile (· ≠ '\n') :=
      trimRust_eq_self _ (headNotWs_takeWhile_neLF t hhead) hfl
    have hcr2 : ¬ '\r' ∈ (t.dropWhile (· ≠ '\n')).tail := by
      intro hmem
      have hsub : ((t.dropWhile (· ≠ '\n')).tail).Sublist t :=
        (List.tail_sublist _).trans (List.dropWhile_sublist _)
      exact hcr (hsub.mem hmem)
    have hd : dedent ((t.dropWhile (· ≠ '\n')).tail) = (t.dropWhile (· ≠ '\n')).tail :=
      dedent_fix _ hcr2 hgl
    simp only [hf, hd]
    rw [← split_recon t hc, htrim]
    simp [hne]
  · rw [if_neg hc0, htrim]
    simp [hne]

/-- C4 is false on the code as stated: normalizing `"\na \nb"` yields
`"a \nb"`, whose own normalization trims the first line's trailing space and
yields the different string `"a\nb"`. -/
theorem C4_counterexample :
    handle_indentation (str "\na \nb") = some (str "a \nb") ∧
      handle_indentation (str "a \nb") = some (str "a\nb") ∧
      (str "a\nb") ≠ (str "a \nb") :=
  ⟨rfl, rfl, by decide⟩

/-- Witness for C4 (amended) at the concrete normalized string `x\na\nb`. -/
theorem C4_witness :
    handle_indentation (str "x\na\nb") = some (str "x\na\nb") :=
  C4_amended (str "x\na\nb") (str "x\na\nb") rfl (by decide) (by decide) (by decide)


/-! ## C5: section normalization in `parse_doc_comment` -/

theorem mem_of_mem_stripCR (seg : List Char) (c : Char) (h : c ∈ stripCR seg) : c ∈ seg := by
  unfold stripCR at h
  split at h
  · exact List.mem_of_mem_dropLast h
  · exact h

theorem mem_of_mem_linesRust (r : List Char) (l : List Char) (hl : l ∈ linesRust r)
    (c : Char) (hc : c ∈ l) : c ∈ r := by
  unfold linesRust at hl
  split at hl
  · simp at hl
  · obtain ⟨seg, hseg, hstrip⟩ := List.mem_map.mp hl
    have hcseg : c ∈ seg := mem_of_mem_stripCR seg c (hstrip ▸ hc)
    split at hseg
    · exact mem_of_mem_splitLF r seg (List.mem_of_mem_dropLast hseg) c hcseg
    · exact mem_of_mem_splitLF r seg hseg c hcseg

theorem dedentRebuild_allWs (p : List Char) (ls : List (List Char))
    (h : ∀ l ∈ ls, allWs l = true) : allWs (dedentRebuild p ls) = true := by
  induction ls with
  | nil => rfl
  | cons l ls ih =>
    unfold dedentRebuild
    simp only [List.map_cons, List.flatten_cons]
    rw [h l (by simp)]
    simp only [Bool.not_true, Bool.and_false, if_false]
    have ihh := ih (fun x hx => h x (by simp [hx]))
    unfold dedentRebuild at ihh
    simp [allWs] at ihh ⊢
    refine ⟨by simp [isRustWs], ihh⟩

theorem allWs_of_sublist {a b : List Char} (hsub : a.Sublist b) (h : allWs b = true) :
    allWs a = true := by
  rw [allWs, List.all_eq_true] at h ⊢
  exact fun c hc => h c (hsub.mem hc)

theorem dedent_allWs_of (r : List Char) (h : allWs r = true) : allWs (dedent r) = true := by
  have hlines : ∀ l ∈ linesRust r, allWs l = true := by
    intro l hl
    rw [allWs, List.all_eq_true]
    intro c hc
    have := mem_of_mem_linesRust r l hl c hc
    rw [allWs, List.all_eq_true] at h
    exact h c this
  simp only [dedent]
  have hreb := dedentRebuild_allWs
    (((findPrefixSplit (linesRust r)).2).foldl shrinkStep (findPrefixSplit (linesRust r)).1)
    (linesRust r) hlines
  split
  · exact allWs_of_sublist (List.dropLast_sublist _) hreb
  · exact hreb

theorem exists_seg_splitLF (s : List Char) (c : Char) (hc : c ∈ s) (hne : c ≠ '\n') :
    ∃ seg ∈ splitLF s, c ∈ seg := by
  induction s with
  | nil => simp at hc
  | cons a rest ih =>
    rw [splitLF]
    by_cases ha : a = '\n'
    · subst ha
      rcases List.mem_cons.mp hc with h1 | h1
      · exact absurd h1 hne
      · obtain ⟨seg, hseg, hcs⟩ := ih h1
        exact ⟨seg, by simp [hseg], hcs⟩
    · simp only [ha, if_false]
      cases hs : splitLF rest with
      | nil => exact absurd hs (splitLF_ne_nil rest)
      | cons s0 ss =>
        rcases List.mem_cons.mp hc with h1 | h1
        · exact ⟨a :: s0, by simp, by simp [h1]⟩
        · obtain ⟨seg, hseg, hcs⟩ := ih h1
          rw [hs] at hseg
          rcases List.mem_cons.mp hseg with h2 | h2
          · exact ⟨a :: s0, by simp, by simp [h2 ▸ hcs]⟩
          · exact ⟨seg, by simp [h2], hcs⟩

theorem exists_line_not_allWs (r : List Char) (h : allWs r = false) :
    ∃ l ∈ linesRust r, allWs l = false := by
  obtain ⟨c, hc, hcw⟩ := List.all_eq_false.mp h
  have hcw : isRustWs c = false := by simpa using hcw
  have hne : c ≠ '\n' := by
    intro hcc
    subst hcc
    simp [isRustWs] at hcw
  have hnr : c ≠ '\r' := by
    intro hcc
    subst hcc
    simp [isRustWs] at hcw
  obtain ⟨seg, hseg, hcs⟩ := exists_seg_splitLF r c hc hne
  have hcstrip : c ∈ stripCR seg := by
    unfold stripCR
    split
    · next hlast =>
      have hbeq : seg.getLast? = some '\r' := by simpa using hlast
      have hdecomp := List.dropLast_append_getLast? '\r' hbeq
      rw [← hdecomp] at hcs
      rcases List.mem_append.mp hcs with h1 | h1
      · exact h1
      · simp at h1
        exact absurd h1 hnr
    · exact hcs
  have hrne : r ≠ [] := by
    intro hr
    subst hr
    simp at hc
  refine ⟨stripCR seg, ?_, ?_⟩
  · unfold linesRust
    rw [if_neg hrne]
    apply List.mem_map_of_mem
    split
    · next he =>
      have hlast := getLast?_splitLF r he
      have hdecomp := List.dropLast_append_getLast? [] hlast
      rw [← hdecomp] at hseg
      rcases List.mem_append.mp hseg with h1 | h1
      · exact h1
      · simp at h1
        subst h1
        simp at hcs
    · exact hseg
  · rw [allWs, List.all_eq_false]
    exact ⟨c, hcstrip, by simp [hcw]⟩

theorem takeWhile_length_lt (l : List Char) (h : allWs l = false) :
    (l.takeWhile isRustWs).length < l.length := by
  have hle : (l.takeWhile isRustWs).length ≤ l.length :=
    (List.takeWhile_prefix _).length_le
  rcases Nat.lt_or_ge (l.takeWhile isRustWs).length l.length with hlt | hge
  · exact hlt
  · exfalso
    have heq : l.takeWhile isRustWs = l :=
      (List.takeWhile_prefix _).eq_of_length (Nat.le_antisymm hle hge)
    rw [List.takeWhile_eq_self_iff] at heq
    have hall : allWs l = true := by
      rw [allWs, List.all_eq_true]
      exact heq
    rw [hall] at h
    exact absurd h (by simp)

theorem findPrefixSplit_found (ls : List (List Char)) (h : ∃ l ∈ ls, allWs l = false) :
    ∃ l0 ∈ ls, allWs l0 = false ∧ (findPrefixSplit ls).1 = l0.takeWhile isRustWs := by
  induction ls with
  | nil => simp at h
  | cons l rest ih =>
    rw [findPrefixSplit]
    by_cases hl : allWs l = false
    · exact ⟨l, by simp, hl, by simp [takeWhile_length_lt l hl]⟩
    · have hlt : ¬ (l.takeWhile isRustWs).length < l.length := by
        have hall : allWs l = true := by
          cases hv : allWs l
          · exact absurd hv hl
          · rfl
        have : l.takeWhile isRustWs = l := by
          rw [List.takeWhile_eq_self_iff]
          rw [allWs, List.all_eq_true] at hall
          exact hall
        simp [this]
      obtain ⟨l0, hl0, hnw, hfst⟩ := ih (by
        obtain ⟨x, hx, hxw⟩ := h
        rcases List.mem_cons.mp hx with h1 | h1
        · exact absurd (h1 ▸ hxw) hl
        · exact ⟨x, h1, hxw⟩)
      exact ⟨l0, by simp [hl0], hnw, by simp [hlt, hfst]⟩

theorem foldl_shrink_take (rest : List (List Char)) :
    ∀ p : List Char, ∃ n, rest.foldl shrinkStep p = p.take n := by
  induction rest with
  | nil => exact fun p => ⟨p.length, by simp⟩
  | cons l ls ih =>
    intro p
    rw [List.foldl_cons]
    have hstep : shrinkStep p l = p.take (commonPrefixLen l p) ∨ shrinkStep p l = p := by
      simp only [shrinkStep]
      split
      · exact Or.inl rfl
      · exact Or.inr rfl
    rcases hstep with hh | hh
    · rw [hh]
      obtain ⟨n, hn⟩ := ih (p.take (commonPrefixLen l p))
      exact ⟨min n (commonPrefixLen l p), by rw [hn, List.take_take]⟩
    · rw [hh]
      exact ih p

theorem dedent_not_allWs (r : List Char) (h : allWs r = false) :
    allWs (dedent r) = false := by
  obtain ⟨l0, hl0, hnw, hfst⟩ := findPrefixSplit_found (linesRust r) (exists_line_not_allWs r h)
  obtain ⟨n, hn⟩ := foldl_shrink_take (findPrefixSplit (linesRust r)).2 (findPrefixSplit (linesRust r)).1
  simp only [dedent]
  set p := (findPrefixSplit (linesRust r)).2.foldl shrinkStep (findPrefixSplit (linesRust r)).1 with hp
  have hptake : p = (l0.takeWhile isRustWs).take n := by rw [hn, hfst]
  have hppre : p <+: l0 := hptake ▸ ((List.take_prefix _ _).trans (List.takeWhile_prefix _))
  have hplen : p.length ≤ (l0.takeWhile isRustWs).length := by
    rw [hptake]
    exact (List.take_prefix _ _).length_le
  -- the head of the dropWhile part survives in the rebuilt line
  have hdw : l0.dropWhile isRustWs ≠ [] := by
    intro hdn
    rw [List.dropWhile_eq_nil_iff] at hdn
    have : allWs l0 = true := by
      rw [allWs, List.all_eq_true]
      exact hdn
    rw [this] at hnw
    simp at hnw
  obtain ⟨d, tl, hdtl⟩ := List.exists_cons_of_ne_nil hdw
  have hdws : isRustWs d = false := by
    have := headNotWs_dropWhile l0
    rw [hdtl] at this
    unfold headNotWs at this
    simpa using this
  have hdmem : d ∈ l0.drop p.length := by
    have h1 : l0.drop p.length = (l0.takeWhile isRustWs).drop p.length ++ l0.dropWhile isRustWs := by
      conv_lhs => rw [← List.takeWhile_append_dropWhile (p := isRustWs) (l := l0)]
      exact List.drop_append_of_le_length hplen
    rw [h1, hdtl]
    exact List.mem_append_right _ (by simp)
  have hcontent : d ∈ (if p.isPrefixOf l0 && !allWs l0 then l0.drop p.length else []) ++ ['\n'] := by
    rw [List.isPrefixOf_iff_prefix.mpr hppre, hnw]
    simp only [Bool.not_false, Bool.and_true, if_true]
    exact List.mem_append_left _ hdmem
  have hreb : d ∈ dedentRebuild p (linesRust r) := by
    unfold dedentRebuild
    rw [List.mem_flatten]
    refine ⟨_, List.mem_map_of_mem _ hl0, hcontent⟩
  have hne : d ≠ '\n' := by
    intro hcc
    subst hcc
    simp [isRustWs] at hdws
  have hfin : ∀ res : List Char, d ∈ res → allWs res = false := by
    intro res hmem
    rw [allWs, List.all_eq_false]
    exact ⟨d, hmem, by simp [hdws]⟩
  split
  · next hcond =>
    have hlast : (dedentRebuild p (linesRust r)).getLast? = some '\n' := by
      have := hcond
      simp only [Bool.and_eq_true, beq_iff_eq] at this
      exact this.1
    have hdecomp := List.dropLast_append_getLast? '\n' hlast
    apply hfin
    rw [← hdecomp] at hreb
    rcases List.mem_append.mp hreb with h1 | h1
    · exact h1
    · simp at h1
      exact absurd h1 hne
  · exact hfin _ hreb

theorem hi_none_iff (x : List Char) :
    handle_indentation x = none ↔ allWs x = true := by
  simp only [handle_indentation]
  by_cases hc0 : x.contains '\n' = true
  · have hc : '\n' ∈ x := List.mem_of_elem_eq_true hc0
    simp only [splitOnceLF]
    rw [if_pos hc0]
    simp only []
    constructor
    · intro h
      have htnil : trimRust (trimRust (x.takeWhile (· ≠ '\n')) ++
          '\n' :: dedent ((x.dropWhile (· ≠ '\n')).tail)) = [] := by
        by_contra hne
        rw [if_neg hne] at h
        simp at h
      have hall := trimRust_nil_allWs _ htnil
      rw [allWs, List.all_eq_true] at hall
      have hf : allWs (x.takeWhile (· ≠ '\n')) = true := by
        have h1 : allWs (trimRust (x.takeWhile (· ≠ '\n'))) = true := by
          rw [allWs, List.all_eq_true]
          intro c hcm
          exact hall c (List.mem_append_left _ hcm)
        have h2 : trimRust (trimRust (x.takeWhile (· ≠ '\n'))) = [] :=
          allWs_trimRust_nil _ h1
        rw [trimRust_idem] at h2
        exact trimRust_nil_allWs _ h2
      have hr : allWs ((x.dropWhile (· ≠ '\n')).tail) = true := by
        have h1 : allWs (dedent ((x.dropWhile (· ≠ '\n')).tail)) = true := by
          rw [allWs, List.all_eq_true]
          intro c hcm
          exact hall c (List.mem_append_right _ (List.mem_cons_of_mem _ hcm))
        by_contra hneg
        have : allWs ((x.dropWhile (· ≠ '\n')).tail) = false := by
          cases hv : allWs ((x.dropWhile (· ≠ '\n')).tail)
          · rfl
          · exact absurd hv hneg
        have := dedent_not_allWs _ this
        rw [h1] at this
        simp at this
      rw [split_recon x hc, allWs, List.all_append, List.all_cons]
      rw [allWs, List.all_eq_true] at hf hr
      have h3 : isRustWs '\n' = true := by decide
      rw [List.all_eq_true.mpr hf, List.all_eq_true.mpr hr, h3]
      rfl
    · intro h
      have hf : allWs (x.takeWhile (· ≠ '\n')) = true := by
        rw [allWs, List.all_eq_true] at h ⊢
        intro c hcm
        exact h c ((List.takeWhile_prefix _).sublist.mem hcm)
      have hr : allWs ((x.dropWhile (· ≠ '\n')).tail) = true := by
        rw [allWs, List.all_eq_true] at h ⊢
        intro c hcm
        exact h c (((List.tail_sublist _).trans (List.dropWhile_sublist _)).mem hcm)
      have hres : allWs (trimRust (x.takeWhile (· ≠ '\n')) ++
          '\n' :: dedent ((x.dropWhile (· ≠ '\n')).tail)) = true := by
        rw [allWs, List.all_append]
        have h1 : allWs (trimRust (x.takeWhile (· ≠ '\n'))) = true := by
          rw [allWs_trimRust_nil _ hf]
          rfl
        have h2 := dedent_allWs_of _ hr
        have h3 : isRustWs '\n' = true := by decide
        rw [allWs] at h1 h2
        rw [List.all_cons, h1, h2, h3]
        rfl
      rw [allWs_trimRust_nil _ hres]
      simp
  · rw [splitOnceLF, if_neg hc0]
    constructor
    · intro h
      have htnil : trimRust x = [] := by
        by_contra hne
        rw [if_neg hne] at h
        simp at h
      exact trimRust_nil_allWs _ htnil
    · intro h
      rw [allWs_trimRust_nil _ h]
      simp

theorem parse_fold_typ (lines : List (List Char))
    (h : ∀ l ∈ lines, (dropPrefixL (str "Type:") (trimRust l)).isSome = false) :
    ∀ (st : ParseState) (bufs : Bufs), st ≠ ParseState.typ →
      (lines.foldl parseStep (st, bufs)).2.typ = bufs.typ ∧
        (lines.foldl parseStep (st, bufs)).1 ≠ ParseState.typ := by
  induction lines with
  | nil => exact fun st bufs hst => ⟨rfl, hst⟩
  | cons l ls ih =>
    intro st bufs hst
    rw [List.foldl_cons]
    have hT : dropPrefixL (str "Type:") (trimRust l) = none := by
      have := h l (by simp)
      cases hv : dropPrefixL (str "Type:") (trimRust l)
      · rfl
      · rw [hv] at this
        simp at this
    have hrest : ∀ x ∈ ls, (dropPrefixL (str "Type:") (trimRust x)).isSome = false :=
      fun x hx => h x (by simp [hx])
    simp only [parseStep, hT]
    cases hE : dropPrefixL (str "Example:") (trimRust l) with
    | some suffix =>
      exact ih hrest ParseState.ex _ (by intro hh; cases hh)
    | none =>
      cases st with
      | doc => exact ih hrest ParseState.doc _ (by intro hh; cases hh)
      | typ => exact absurd rfl hst
      | ex => exact ih hrest ParseState.ex _ (by intro hh; cases hh)

theorem parse_fold_ex (lines : List (List Char))
    (h : ∀ l ∈ lines,
      (!(dropPrefixL (str "Type:") (trimRust l)).isSome &&
        (dropPrefixL (str "Example:") (trimRust l)).isSome) = false) :
    ∀ (st : ParseState) (bufs : Bufs), st ≠ ParseState.ex →
      (lines.foldl parseStep (st, bufs)).2.ex = bufs.ex ∧
        (lines.foldl parseStep (st, bufs)).1 ≠ ParseState.ex := by
  induction lines with
  | nil => exact fun st bufs hst => ⟨rfl, hst⟩
  | cons l ls ih =>
    intro st bufs hst
    rw [List.foldl_cons]
    have hrest : ∀ x ∈ ls,
        (!(dropPrefixL (str "Type:") (trimRust x)).isSome &&
          (dropPrefixL (str "Example:") (trimRust x)).isSome) = false :=
      fun x hx => h x (by simp [hx])
    cases hT : dropPrefixL (str "Type:") (trimRust l) with
    | some suffix =>
      simp only [parseStep, hT]
      exact ih hrest ParseState.typ _ (by intro hh; cases hh)
    | none =>
      have hE : dropPrefixL (str "Example:") (trimRust l) = none := by
        have h2 := h l (by simp)
        rw [hT] at h2
        simp at h2
        cases hv : dropPrefixL (str "Example:") (trimRust l)
        · rfl
        · rw [hv] at h2
          simp at h2
      simp only [parseStep, hT, hE]
      cases st with
      | doc => exact ih hrest ParseState.doc _ (by intro hh; cases hh)
      | typ => exact ih hrest ParseState.typ _ (by intro hh; cases hh)
      | ex => exact absurd rfl hst

/-- C5 (amended): a whitespace-only description buffer yields `doc = ""` (the
`doc` field is a string, never an absent value); `doc_type` and `example` are
`None` exactly when their accumulated section content is entirely whitespace —
in particular whenever their `Type:`/`Example:` section never appeared, but
also when the section appeared with only-whitespace content. -/
theorem C5_section_normalization (raw : List Char) :
    (allWs (parseBufs raw).doc = true → (parse_doc_comment raw).doc = []) ∧
    ((parse_doc_comment raw).doc_type = none ↔ allWs (parseBufs raw).typ = true) ∧
    ((parse_doc_comment raw).example' = none ↔ allWs (parseBufs raw).ex = true) ∧
    (typeAppeared raw = false → (parse_doc_comment raw).doc_type = none) ∧
    (exampleAppeared raw = false → (parse_doc_comment raw).example' = none) := by
  have hdoc : (parse_doc_comment raw).doc = (handle_indentation (parseBufs raw).doc).getD [] :=
    rfl
  have htyp : (parse_doc_comment raw).doc_type = handle_indentation (parseBufs raw).typ := rfl
  have hex : (parse_doc_comment raw).example' = handle_indentation (parseBufs raw).ex := rfl
  refine ⟨?_, ?_, ?_, ?_, ?_⟩
  · intro h
    rw [hdoc, (hi_none_iff _).mpr h]
    rfl
  · rw [htyp]
    exact hi_none_iff _
  · rw [hex]
    exact hi_none_iff _
  · intro h
    have hall : ∀ l ∈ splitInclusiveLF raw,
        (dropPrefixL (str "Type:") (trimRust l)).isSome = false := by
      unfold typeAppeared at h
      rw [List.any_eq_false] at h
      intro l hl
      simpa using h l hl
    have hbuf : (parseBufs raw).typ = [] := by
      unfold parseBufs
      exact (parse_fold_typ (splitInclusiveLF raw) hall ParseState.doc ⟨[], [], []⟩
        (by intro hh; cases hh)).1
    rw [htyp, hbuf]
    exact (hi_none_iff []).mpr rfl
  · intro h
    have hall : ∀ l ∈ splitInclusiveLF raw,
        (!(dropPrefixL (str "Type:") (trimRust l)).isSome &&
          (dropPrefixL (str "Example:") (trimRust l)).isSome) = false := by
      unfold exampleAppeared at h
      rw [List.any_eq_false] at h
      intro l hl
      simpa using h l hl
    have hbuf : (parseBufs raw).ex = [] := by
      unfold parseBufs
      exact (parse_fold_ex (splitInclusiveLF raw) hall ParseState.doc ⟨[], [], []⟩
        (by intro hh; cases hh)).1
    rw [hex, hbuf]
    exact (hi_none_iff []).mpr rfl

/-- C5 is false on the code as stated: in the raw comment `Type:` the type
section did appear, yet `doc_type` is `None` because its content is empty. -/
theorem C5_counterexample :
    (parse_doc_comment (str "Type:")).doc_type = none ∧
      typeAppeared (str "Type:") = true :=
  ⟨rfl, rfl⟩

/-- Witness for C5 (amended) at a concrete comment with no sections. -/
theorem C5_witness :
    (parse_doc_comment (str "just a description")).doc_type = none :=
  (C5_section_normalization (str "just a description")).2.2.2.1 rfl


/-! ## C6: the panic conditions of the extraction core -/

theorem mem_ctxChildren : ∀ (cs : List SyntaxTree) (ctx : List Token)
    (x : List Token × SyntaxTree), x ∈ ctxChildren ctx cs → x.2 ∈ cs := by
  intro cs
  induction cs with
  | nil => intro ctx x h; simp [ctxChildren] at h
  | cons c rest ih =>
    intro ctx x h
    rw [ctxChildren] at h
    rcases List.mem_cons.mp h with h1 | h1
    · subst h1; simp
    · exact List.mem_cons_of_mem _ (ih _ x h1)

theorem mem_ctxChildren_of_mem : ∀ (cs : List SyntaxTree) (ctx : List Token)
    (c : SyntaxTree), c ∈ cs → ∃ p, (p, c) ∈ ctxChildren ctx cs := by
  intro cs
  induction cs with
  | nil => intro ctx c h; simp at h
  | cons a rest ih =>
    intro ctx c h
    rcases List.mem_cons.mp h with h1 | h1
    · subst h1
      exact ⟨ctx, by rw [ctxChildren]; simp⟩
    · obtain ⟨p, hp⟩ := ih (a.tokensRev ++ ctx) c h1
      exact ⟨p, by rw [ctxChildren]; simp [hp]⟩

theorem wfList_mem : ∀ (cs : List SyntaxTree), wfList cs = true →
    ∀ c ∈ cs, wfTree c = true := by
  intro cs
  induction cs with
  | nil => intro _ c h; simp at h
  | cons a rest ih =>
    intro hwf c h
    rw [wfList] at hwf
    rw [Bool.and_eq_true] at hwf
    rcases List.mem_cons.mp h with h1 | h1
    · subst h1; exact hwf.1
    · exact ih hwf.2 c h1

theorem wfTree_node (k : NodeKind) (cs : List SyntaxTree)
    (h : wfTree (.node k cs) = true) : kindOK k cs = true ∧ wfList cs = true := by
  rw [wfTree, Bool.and_eq_true] at h
  exact h

mutual

theorem wf_preorderTree : ∀ (t : SyntaxTree) (ctx : List Token)
    (x : List Token × SyntaxTree), wfTree t = true → x ∈ preorderTree ctx t →
    wfTree x.2 = true
  | .tok _, ctx, x => by
    intro _ hx
    simp [preorderTree] at hx
  | .node k cs, ctx, x => by
    intro hwf hx
    rw [preorderTree] at hx
    rcases List.mem_cons.mp hx with h1 | h1
    · subst h1; exact hwf
    · exact wf_preorderKids cs ctx x (wfTree_node k cs hwf).2 h1

theorem wf_preorderKids : ∀ (cs : List SyntaxTree) (ctx : List Token)
    (x : List Token × SyntaxTree), wfList cs = true → x ∈ preorderKids ctx cs →
    wfTree x.2 = true
  | [], ctx, x => by
    intro _ hx
    simp [preorderKids] at hx
  | c :: rest, ctx, x => by
    intro hwf hx
    rw [preorderKids] at hx
    rw [wfList, Bool.and_eq_true] at hwf
    rcases List.mem_append.mp hx with h1 | h1
    · exact wf_preorderTree c ctx x hwf.1 h1
    · exact wf_preorderKids rest _ x hwf.2 h1

end

theorem ctxFind_isSome (q : SyntaxTree → Bool) (cs : List SyntaxTree) (ctx : List Token)
    (h : cs.any q = true) :
    ∃ x, (ctxChildren ctx cs).find? (fun y => q y.2) = some x := by
  obtain ⟨c, hc, hq⟩ := List.any_eq_true.mp h
  obtain ⟨p, hp⟩ := mem_ctxChildren_of_mem cs ctx c hc
  have : ((ctxChildren ctx cs).find? (fun y => q y.2)).isSome = true :=
    List.find?_isSome.mpr ⟨(p, c), hp, hq⟩
  exact Option.isSome_iff_exists.mp this

theorem exc_pure {α : Type} (a : α) : (pure a : Except Panic α) = .ok a := rfl

theorem mapM_ok {α β : Type} (f : α → Except Panic β) : ∀ (l : List α),
    (∀ x ∈ l, okE (f x) = true) → okE (l.mapM f) = true := by
  intro l
  induction l with
  | nil => intro _; rw [List.mapM_nil]; rfl
  | cons a rest ih =>
    intro h
    rw [List.mapM_cons]
    have ha := h a (by simp)
    cases hfa : f a with
    | error e => rw [hfa] at ha; simp [okE] at ha
    | ok y =>
      rw [exc_bind_ok]
      have hr := ih (fun x hx => h x (by simp [hx]))
      cases hmr : rest.mapM f with
      | error e => rw [hmr] at hr; simp [okE] at hr
      | ok ys => rw [exc_bind_ok, exc_pure]; rfl

theorem hasKind_node (t : SyntaxTree) (k : NodeKind) (h : t.hasKind k = true) :
    ∃ cs, t = .node k cs := by
  cases t with
  | tok tk => simp [SyntaxTree.hasKind, SyntaxTree.kind?] at h
  | node k2 cs =>
    simp [SyntaxTree.hasKind, SyntaxTree.kind?] at h
    subst h
    exact ⟨cs, rfl⟩

theorem kindOK_lambda (cs : List SyntaxTree) (h : kindOK .lambda cs = true) :
    cs.any isParamTree = true := by
  simp [kindOK] at h
  exact List.any_eq_true.mpr h

theorem kindOK_patEntry (cs : List SyntaxTree) (h : kindOK .patEntry cs = true) :
    cs.any (fun c => c.hasKind .ident) = true := by
  simp [kindOK] at h
  exact List.any_eq_true.mpr h

theorem kindOK_apv (cs : List SyntaxTree) (h : kindOK .apv cs = true) :
    cs.any (fun c => c.hasKind .attrpath) = true := by
  simp [kindOK] at h
  exact List.any_eq_true.mpr h

theorem kindOK_letIn (cs : List SyntaxTree) (h : kindOK .letIn cs = true) :
    cs.any isExprTree = true := by
  simp [kindOK] at h
  exact List.any_eq_true.mpr h

theorem nodeFind_isSome (k kk : NodeKind) (cs : List SyntaxTree)
    (h : cs.any (fun c => c.hasKind kk) = true) :
    ∃ i, firstNodeOfKind kk (.node k cs) = some i := by
  rw [firstNodeOfKind]
  obtain ⟨c, hc, hq⟩ := List.any_eq_true.mp h
  exact Option.isSome_iff_exists.mp (List.find?_isSome.mpr ⟨c, hc, hq⟩)

theorem patEntryArg_ok (ectx : List Token) (e : SyntaxTree)
    (hwf : wfTree e = true) (hk : e.hasKind .patEntry = true) :
    okE (patEntryArg ectx e) = true := by
  obtain ⟨ecs, rfl⟩ := hasKind_node e .patEntry hk
  have hany := kindOK_patEntry ecs (wfTree_node _ _ hwf).1
  obtain ⟨i, hi⟩ := nodeFind_isSome .patEntry .ident ecs hany
  rw [patEntryArg, hi]
  rfl

theorem paramArg_ok (pctx : List Token) (p : SyntaxTree)
    (hwf : wfTree p = true) (hpar : isParamTree p = true) :
    okE (paramArg pctx p) = true := by
  by_cases hip : p.hasKind .identParam = true
  · rw [paramArg.eq_def, if_pos hip]
    rfl
  · have hpat : p.hasKind .pattern = true := by
      rw [isParamTree, Bool.or_eq_true] at hpar
      rcases hpar with h1 | h1
      · exact absurd h1 hip
      · exact h1
    obtain ⟨pcs, rfl⟩ := hasKind_node p .pattern hpat
    rw [paramArg.eq_def, if_neg hip]
    show okE (do
      let entries ← ((ctxChildren pctx pcs).filter (fun x => x.2.hasKind .patEntry)).mapM
        (fun x => patEntryArg x.1 x.2)
      (Except.ok (Argument.Pattern entries) : Except Panic Argument)) = true
    have hmok := mapM_ok (fun x => patEntryArg x.1 x.2)
      ((ctxChildren pctx pcs).filter (fun x => x.2.hasKind .patEntry))
      (by
        intro x hx
        have hmem := List.mem_filter.mp hx
        have hxp : x.2 ∈ pcs := mem_ctxChildren pcs pctx x hmem.1
        have hxwf : wfTree x.2 = true :=
          wfList_mem pcs (wfTree_node _ _ hwf).2 x.2 hxp
        exact patEntryArg_ok x.1 x.2 hxwf hmem.2)
    cases hm : ((ctxChildren pctx pcs).filter (fun x => x.2.hasKind .patEntry)).mapM
        (fun x => patEntryArg x.1 x.2) with
    | error e => rw [hm] at hmok; simp [okE] at hmok
    | ok entries => rw [exc_bind_ok]; rfl

mutual

theorem cla_ok : ∀ (t : SyntaxTree) (ctx : List Token), wfTree t = true →
    t.hasKind .lambda = true → okE (collect_lambda_args ctx t) = true
  | .tok _, ctx => by
    intro _ hk
    simp [SyntaxTree.hasKind, SyntaxTree.kind?] at hk
  | .node k cs, ctx => by
    intro hwf hk
    have hkl : k = .lambda := by
      simp [SyntaxTree.hasKind, SyntaxTree.kind?] at hk
      exact hk
    subst hkl
    have hany := kindOK_lambda cs (wfTree_node _ _ hwf).1
    obtain ⟨pc, hpc⟩ := ctxFind_isSome isParamTree cs ctx hany
    rw [collect_lambda_args, hpc]
    show okE (do
      let arg ← paramArg pc.1 pc.2
      let rest ← collectLambdaBody ctx cs
      (Except.ok (arg :: rest) : Except Panic (List Argument))) = true
    have hpwf : wfTree pc.2 = true :=
      wfList_mem cs (wfTree_node _ _ hwf).2 pc.2
        (mem_ctxChildren cs ctx pc (List.mem_of_find?_eq_some hpc))
    have hppar : isParamTree pc.2 = true := by
      have h2 := List.find?_some hpc
      simpa using h2
    have hpok := paramArg_ok pc.1 pc.2 hpwf hppar
    cases hp : paramArg pc.1 pc.2 with
    | error e => rw [hp] at hpok; simp [okE] at hpok
    | ok arg =>
      rw [exc_bind_ok]
      have hbok := claBody_ok cs ctx (wfTree_node _ _ hwf).2
      cases hb : collectLambdaBody ctx cs with
      | error e => rw [hb] at hbok; simp [okE] at hbok
      | ok rest => rw [exc_bind_ok]; rfl

theorem claBody_ok : ∀ (cs : List SyntaxTree) (ctx : List Token), wfList cs = true →
    okE (collectLambdaBody ctx cs) = true
  | [], ctx => by
    intro _
    rfl
  | c :: rest, ctx => by
    intro hwf
    rw [wfList, Bool.and_eq_true] at hwf
    rw [collectLambdaBody]
    split
    · split
      · next he hl => exact cla_ok c ctx hwf.1 hl
      · rfl
    · exact claBody_ok rest _ hwf.2

end

theorem retrieve_doc_item_ok (ctx : List Token) (t : SyntaxTree)
    (hwf : wfTree t = true) (hk : t.hasKind .apv = true) :
    okE (retrieve_doc_item ctx t) = true := by
  obtain ⟨cs, rfl⟩ := hasKind_node t .apv hk
  rw [retrieve_doc_item]
  cases hc : retrieveDocCommentNode ctx (.node .apv cs) false with
  | none => rfl
  | some cm =>
    have hany := kindOK_apv cs (wfTree_node _ _ hwf).1
    obtain ⟨ap, hap⟩ := nodeFind_isSome .apv .attrpath cs hany
    rw [hap]
    rfl

theorem collect_entry_information_ok (ctx : List Token) (t : SyntaxTree)
    (hwf : wfTree t = true) (hk : t.hasKind .apv = true) :
    okE (collect_entry_information ctx t) = true := by
  have hrok := retrieve_doc_item_ok ctx t hwf hk
  obtain ⟨cs, rfl⟩ := hasKind_node t .apv hk
  rw [collect_entry_information]
  cases hr : retrieve_doc_item ctx (.node .apv cs) with
  | error e => rw [hr] at hrok; simp [okE] at hrok
  | ok r =>
    rw [exc_bind_ok]
    cases r with
    | none => rfl
    | some di =>
      show okE (match (ctxChildren ctx cs).find? (fun x => isExprTree x.2) with
        | some lc =>
          if lc.2.hasKind .lambda then do
            let args ← collect_lambda_args lc.1 lc.2
            (Except.ok (some { di with args := args }) : Except Panic (Option DocItem))
          else Except.ok (some di)
        | none => Except.ok (some di)) = true
      cases hf : (ctxChildren ctx cs).find? (fun x => isExprTree x.2) with
      | none => rfl
      | some lc =>
        show okE (if lc.2.hasKind .lambda then do
            let args ← collect_lambda_args lc.1 lc.2
            (Except.ok (some { di with args := args }) : Except Panic (Option DocItem))
          else Except.ok (some di)) = true
        by_cases hl : lc.2.hasKind .lambda = true
        · rw [if_pos hl]
          have hlwf : wfTree lc.2 = true :=
            wfList_mem cs (wfTree_node _ _ hwf).2 lc.2
              (mem_ctxChildren cs ctx lc (List.mem_of_find?_eq_some hf))
          have hcok := cla_ok lc.2 lc.1 hlwf hl
          cases hcl : collect_lambda_args lc.1 lc.2 with
          | error e => rw [hcl] at hcok; simp [okE] at hcok
          | ok args => rw [exc_bind_ok]; rfl
        · rw [if_neg hl]
          rfl

theorem bindingChildEntries_ok (scope : Scope) (category : List Char)
    (cctx : List Token) (c : SyntaxTree) (hwf : wfTree c = true) :
    okE (bindingChildEntries scope category cctx c) = true := by
  rw [bindingChildEntries.eq_def]
  by_cases hapv : c.hasKind .apv = true
  · rw [if_pos hapv]
    have hcok := collect_entry_information_ok cctx c hwf hapv
    cases hc : collect_entry_information cctx c with
    | error e => rw [hc] at hcok; simp [okE] at hcok
    | ok r =>
      rw [exc_bind_ok]
      cases r with
      | none => rfl
      | some di => rfl
  · rw [if_neg hapv]
    by_cases hinh : c.hasKind .inh = true
    · rw [if_pos hinh]
      obtain ⟨cs, rfl⟩ := hasKind_node c .inh hinh
      show okE (if cs.any (fun x => x.hasKind .inhFrom) then (Except.ok [] : Except Panic (List ManualEntry))
        else Except.ok (cs.filterMap (fun a =>
          if a.hasKind .ident then scopeGet scope a.text else none))) = true
      split
      · rfl
      · rfl
    · rw [if_neg hinh]
      rfl

theorem collect_bindings_ok (ctx : List Token) (node : SyntaxTree)
    (category : List Char) (scope : Scope) (hwf : wfTree node = true) :
    okE (collect_bindings ctx node category scope) = true := by
  rw [collect_bindings]
  cases hf : (preorderTree ctx node).find? (fun x => x.2.hasKind .attrSet) with
  | none => rfl
  | some ac =>
    have hacwf : wfTree ac.2 = true :=
      wf_preorderTree node ctx ac hwf (List.mem_of_find?_eq_some hf)
    have hack : ac.2.hasKind .attrSet = true := by
      have h2 := List.find?_some hf
      simpa using h2
    obtain ⟨cs, hcs⟩ := hasKind_node ac.2 .attrSet hack
    show okE (match ac.2 with
      | SyntaxTree.node _ cs2 => do
          let ess ← (ctxChildren ac.1 cs2).mapM
            (fun x => bindingChildEntries scope category x.1 x.2)
          (Except.ok ess.flatten : Except Panic (List ManualEntry))
      | SyntaxTree.tok _ => Except.ok []) = true
    rw [hcs]
    show okE (do
      let ess ← (ctxChildren ac.1 cs).mapM
        (fun x => bindingChildEntries scope category x.1 x.2)
      (Except.ok ess.flatten : Except Panic (List ManualEntry))) = true
    have hmok := mapM_ok (fun x => bindingChildEntries scope category x.1 x.2)
      (ctxChildren ac.1 cs)
      (by
        intro x hx
        have hxwf : wfTree x.2 = true := by
          apply wfList_mem cs _ x.2 (mem_ctxChildren cs ac.1 x hx)
          rw [hcs] at hacwf
          exact (wfTree_node _ _ hacwf).2
        exact bindingChildEntries_ok scope category x.1 x.2 hxwf)
    cases hm : (ctxChildren ac.1 cs).mapM (fun x => bindingChildEntries scope category x.1 x.2) with
    | error e => rw [hm] at hmok; simp [okE] at hmok
    | ok ess => rw [exc_bind_ok]; rfl

theorem buildScope_ok (nctx : List Token) (cs : List SyntaxTree) (category : List Char)
    (hwf : wfList cs = true) : okE (buildScope nctx cs category) = true := by
  rw [buildScope]
  have hmok := mapM_ok (fun x => collect_entry_information x.1 x.2)
    ((ctxChildren nctx cs).filter (fun x => x.2.hasKind .apv))
    (by
      intro x hx
      have hmem := List.mem_filter.mp hx
      have hxwf : wfTree x.2 = true :=
        wfList_mem cs hwf x.2 (mem_ctxChildren cs nctx x hmem.1)
      exact collect_entry_information_ok x.1 x.2 hxwf hmem.2)
  cases hm : ((ctxChildren nctx cs).filter (fun x => x.2.hasKind .apv)).mapM
      (fun x => collect_entry_information x.1 x.2) with
  | error e => rw [hm] at hmok; simp [okE] at hmok
  | ok ds => rw [exc_bind_ok]; rfl

/-- A structurally sound tree never panics: every `unwrap` in the core is
covered by the corresponding `kindOK` conjunct. -/
theorem wf_no_panic (root : SyntaxTree) (category : List Char)
    (hwf : wfTree root = true) : okE (collect_entries root category) = true := by
  rw [collect_entries]
  cases hf : (preorderTree [] root).find?
      (fun x => x.2.hasKind .letIn || x.2.hasKind .attrSet) with
  | none => rfl
  | some nc =>
    have hncwf : wfTree nc.2 = true :=
      wf_preorderTree root [] nc hwf (List.mem_of_find?_eq_some hf)
    show okE (if nc.2.hasKind .letIn then
        match nc.2 with
        | SyntaxTree.node _ cs =>
          match letInBody nc.1 cs with
          | none => Except.error Panic.missingLetInBody
          | some bc => do
              let scope ← buildScope nc.1 cs category
              collect_bindings bc.1 bc.2 category scope
        | SyntaxTree.tok _ => Except.ok []
      else collect_bindings nc.1 nc.2 category []) = true
    by_cases hl : nc.2.hasKind .letIn = true
    · rw [if_pos hl]
      obtain ⟨cs, hcs⟩ := hasKind_node nc.2 .letIn hl
      rw [hcs]
      show okE (match letInBody nc.1 cs with
        | none => Except.error Panic.missingLetInBody
        | some bc => do
            let scope ← buildScope nc.1 cs category
            collect_bindings bc.1 bc.2 category scope) = true
      have hany := kindOK_letIn cs (wfTree_node _ _ (hcs ▸ hncwf)).1
      obtain ⟨bc, hbc⟩ := ctxFind_isSome isExprTree cs nc.1 hany
      rw [show letInBody nc.1 cs = some bc from hbc]
      show okE (do
        let scope ← buildScope nc.1 cs category
        collect_bindings bc.1 bc.2 category scope) = true
      have hsok := buildScope_ok nc.1 cs category (wfTree_node _ _ (hcs ▸ hncwf)).2
      cases hs : buildScope nc.1 cs category with
      | error e => rw [hs] at hsok; simp [okE] at hsok
      | ok scope =>
        rw [exc_bind_ok]
        have hbwf : wfTree bc.2 = true :=
          wfList_mem cs (wfTree_node _ _ (hcs ▸ hncwf)).2 bc.2
            (mem_ctxChildren cs nc.1 bc (List.mem_of_find?_eq_some hbc))
        exact collect_bindings_ok bc.1 bc.2 category scope hbwf
    · rw [if_neg hl]
      exact collect_bindings_ok nc.1 nc.2 category [] hncwf

/-- A binding set holding a documented binding whose value is a lambda with no
parameter (panic site of line 250). -/
def panParamTree : SyntaxTree :=
  .node .root [.node .attrSet [plainTok "\x7b", wsTok " ", cmtTok "/* d */", wsTok " ",
    .node .apv [.node .attrpath [identNode "f"], wsTok " ", plainTok "=", wsTok " ",
      .node .lambda [plainTok ":"]], plainTok "\x7d"]]

/-- A documented binding whose lambda has a pattern entry with no identifier
(panic site of line 261). -/
def panPatIdTree : SyntaxTree :=
  .node .root [.node .attrSet [plainTok "\x7b", wsTok " ", cmtTok "/* d */", wsTok " ",
    .node .apv [.node .attrpath [identNode "g"], wsTok " ", plainTok "=", wsTok " ",
      .node .lambda [.node .pattern [.node .patEntry [plainTok "?"]], plainTok ":",
        identNode "x"]], plainTok "\x7d"]]

/-- A documented binding node with no attribute path (panic site of line 163). -/
def panAttrpathTree : SyntaxTree :=
  .node .root [.node .attrSet [plainTok "\x7b", wsTok " ", cmtTok "/* d */", wsTok " ",
    .node .apv [identNode "x"], plainTok "\x7d"]]

/-- A let-in node with no body expression (panic site of line 346). -/
def panLetInTree : SyntaxTree := .node .root [.node .letIn []]

/-- C6 is false as stated: a let-in node lacking a body expression makes the
core panic (`LetIn::body().unwrap()` at line 346), a condition outside the
claim's two (missing formal parameter, missing attribute path). -/
theorem C6_counterexample :
    collect_entries panLetInTree (str "c") = .error Panic.missingLetInBody ∧
      Panic.missingLetInBody ≠ Panic.missingParam ∧
      Panic.missingLetInBody ≠ Panic.missingAttrpath :=
  ⟨rfl, by decide, by decide⟩

/-- C6 (amended): the core panics under exactly four structural conditions —
a lambda without a formal parameter, a pattern entry without an identifier, a
documented binding without an attribute path, and a let-in without a body.
Every tree in which no node exhibits one of those four defects (`wfTree`)
returns normally, and each of the four defects is reachable. -/
theorem C6_exactly_four_panic_conditions :
    (∀ (root : SyntaxTree) (category : List Char), wfTree root = true →
        okE (collect_entries root category) = true) ∧
    collect_entries panParamTree (str "c") = .error Panic.missingParam ∧
    collect_entries panPatIdTree (str "c") = .error Panic.missingPatEntryIdent ∧
    collect_entries panAttrpathTree (str "c") = .error Panic.missingAttrpath ∧
    collect_entries panLetInTree (str "c") = .error Panic.missingLetInBody :=
  ⟨wf_no_panic, rfl, rfl, rfl, rfl⟩

/-- Witness for C6 (amended) at the structurally sound `add` scenario tree. -/
theorem C6_witness : okE (collect_entries addRoot (str "math")) = true :=
  C6_exactly_four_panic_conditions.1 addRoot (str "math") (by decide)
